import Mathlib

/-!
Shallow embedding of the Vectorfitting repository (vector-fitting engine for
rational approximation of frequency-domain data) and proofs about it.

Sources embedded here:
* src/vectorfitting/transferfunction.py — class TransferFunction
  (evaluate, is_passive, to_SS)
* src/tools.py — gilbert_realization
* src/vectorfitting/vecfit.py — class VecFit (engine state and its methods
  _enforce_stability, _compute_poles, _update_TF, _reduce_order,
  _evaluate_fit, fit)

Real scalars are modelled by ℝ and complex numpy scalars by ℂ; numpy arrays
of matrices become lists of Mathlib matrices.  External LAPACK routines
(np.linalg.eigvals, np.linalg.lstsq) are modelled as oracle parameters: the
surrounding code is embedded faithfully and the theorems quantify over the
oracle.
-/

noncomputable section

open Matrix Kronecker Complex

/-- Complex m×n matrix, the element type of the data tensor. -/
abbrev CMat (m n : ℕ) : Type := Matrix (Fin m) (Fin n) ℂ

/-- Real m×n matrix. -/
abbrev RMat (m n : ℕ) : Type := Matrix (Fin m) (Fin n) ℝ

/-- Python exception kinds raised by the embedded code. -/
inductive PyErr : Type where
  | typeError : PyErr
  | valueError : PyErr
deriving DecidableEq, Repr

/-- Transfer function model in pole-residue form
    H(s) = Const + s*Diff + Zero/s + sum of Residues/(s - Poles)
    [transferfunction.py lines 54-80].  The Const/Diff/Zero attributes hold
    either the scalar 0 or an m×n matrix in Python; both are modelled by an
    m×n matrix (the scalar 0 broadcasts to the zero matrix). -/
structure TransferFunction (m n : ℕ) : Type where
  Poles : List ℂ
  Residues : List (CMat m n)
  Const : CMat m n
  Diff : CMat m n
  Zero : CMat m n

/-- Body of the evaluation loop of TransferFunction.evaluate at one grid
    frequency f: jw = 2j*pi*f, H = Const + jw*Diff + Zero/jw + sum of
    r/(jw - p) over zip(Residues, Poles) [transferfunction.py lines 137-144]. -/
def TransferFunction.evalAt {m n : ℕ} (tf : TransferFunction m n) (f : ℝ) :
    CMat m n :=
  let jw : ℂ := 2 * (Real.pi : ℂ) * (f : ℂ) * Complex.I
  tf.Const + jw • tf.Diff + jw⁻¹ • tf.Zero +
    (List.zipWith (fun R p => (jw - p)⁻¹ • R) tf.Residues tf.Poles).sum

/-- TransferFunction.evaluate: maps evalAt over the frequency grid and
    collects the results [transferfunction.py lines 132-146]. -/
def TransferFunction.evaluate {m n : ℕ} (tf : TransferFunction m n)
    (Freq : List ℝ) : List (CMat m n) :=
  Freq.map tf.evalAt

/-- TransferFunction.is_passive [transferfunction.py lines 85-113].
    Python: stable = np.all(self.Poles.real < 0); H = self.evaluate(Freq);
    for each sample the real parts of the eigenvalues of the Hermitian part
    h + h.T.conj() are collected; passive = stable and np.all(Eigs > 0);
    returns (passive, Eigs).  The external eigensolver np.linalg.eigvals is
    the oracle parameter eig. -/
def TransferFunction.is_passive {d : ℕ}
    (eig : Matrix (Fin d) (Fin d) ℂ → List ℂ)
    (tf : TransferFunction d d) (Freq : List ℝ) : Prop × List (List ℝ) :=
  let stable : Prop := ∀ p ∈ tf.Poles, p.re < 0
  let Eigs : List (List ℝ) :=
    (tf.evaluate Freq).map (fun h => (eig (h + h.conjTranspose)).map Complex.re)
  (stable ∧ ∀ row ∈ Eigs, ∀ x ∈ row, 0 < x, Eigs)

/-! ### Gilbert realization [tools.py lines 270-321]

The source loops over enumerate(zip(Poles, Residues)) carrying the previous
pole p_old (initialised to 0).  Each loop step writes to cells of a, b, C
that no other step writes to, except that b[k-1] is overwritten with 2 by
step k when is_cc holds at k.  The definitions below give the resulting
entries directly as a function of the index; the flag gilIsCC k is the
value of is_cc computed at loop index k. -/

/-- Pole list access as used by the loop, with numpy out-of-range modelled
    by 0 (all accesses in the lemmas stay in range). -/
def pnth (Poles : List ℂ) (k : ℕ) : ℂ := Poles.getD k 0

/-- Residue list access (out-of-range modelled by the zero matrix). -/
def rnth {m n : ℕ} (Residues : List (CMat m n)) (k : ℕ) : CMat m n :=
  Residues.getD k 0

/-- Value of p_old seen at loop index k: the initial value 0 for k = 0,
    otherwise the pole of the previous index [tools.py line 296, 301]. -/
def gilPrev (Poles : List ℂ) (k : ℕ) : ℂ :=
  if k = 0 then 0 else pnth Poles (k - 1)

/-- is_cc = (p.imag != 0 and p == np.conj(p_old)) at loop index k
    [tools.py line 300]. -/
def gilIsCC (Poles : List ℂ) (k : ℕ) : Prop :=
  (pnth Poles k).im ≠ 0 ∧ pnth Poles k = star (gilPrev Poles k)

instance (Poles : List ℂ) (k : ℕ) : Decidable (gilIsCC Poles k) := by
  unfold gilIsCC; infer_instance

/-- The real companion matrix a built by the loop [tools.py lines 290,
    303, 306-307]: a[k,k] = p_k.real for every k; when is_cc holds at k,
    additionally a[k,k-1] = -p_k.imag and a[k-1,k] = p_k.imag. -/
def gilA (Poles : List ℂ) :
    Matrix (Fin Poles.length) (Fin Poles.length) ℝ :=
  Matrix.of fun i j =>
    if i = j then (pnth Poles i).re
    else if i.val = j.val + 1 ∧ gilIsCC Poles i.val then -(pnth Poles i).im
    else if j.val = i.val + 1 ∧ gilIsCC Poles j.val then (pnth Poles j).im
    else 0

/-- The input vector b built by the loop [tools.py lines 291, 304,
    308-309]: step k sets b[k] = 1, then if is_cc holds at k it resets
    b[k] = 0 and overwrites b[k-1] = 2.  Since the write at step k+1 is the
    last write to cell k, the final value is: 2 if is_cc holds at k+1,
    else 0 if is_cc holds at k, else 1. -/
def gilB (Poles : List ℂ) : Fin Poles.length → ℝ := fun k =>
  if gilIsCC Poles (k.val + 1) then 2
  else if gilIsCC Poles k.val then 0 else 1

/-- The output matrix C built by the loop [tools.py lines 294, 312-313]:
    column k + N*i (modelled by the pair (i, k)) holds the real part of
    column i of residue k, or its imaginary part when is_cc holds at k. -/
def gilC {m n : ℕ} (Poles : List ℂ) (Residues : List (CMat m n)) :
    Matrix (Fin m) (Fin n × Fin Poles.length) ℝ :=
  Matrix.of fun r q =>
    if gilIsCC Poles q.2.val then (rnth Residues q.2.val r q.1).im
    else (rnth Residues q.2.val r q.1).re

/-- A = np.kron(np.eye(n), a) [tools.py line 316]; the flat index i*N+k of
    the numpy block structure is modelled by the pair (i, k). -/
def gilKronA {n : ℕ} (Poles : List ℂ) :
    Matrix (Fin n × Fin Poles.length) (Fin n × Fin Poles.length) ℝ :=
  (1 : Matrix (Fin n) (Fin n) ℝ) ⊗ₖ gilA Poles

/-- B = np.kron(np.eye(n), b).T [tools.py line 317]. -/
def gilBmat {n : ℕ} (Poles : List ℂ) :
    Matrix (Fin n × Fin Poles.length) (Fin n) ℝ :=
  Matrix.of fun q j => if q.1 = j then gilB Poles q.2 else 0

/-- gilbert_realization(Poles, Residues, Const, Diff) returns
    (A, B, C, D, E) with D = Const and E = Diff [tools.py lines 316-321]. -/
def gilbert_realization {m n : ℕ} (Poles : List ℂ)
    (Residues : List (CMat m n)) (Const Diff : CMat m n) :
    Matrix (Fin n × Fin Poles.length) (Fin n × Fin Poles.length) ℝ ×
    Matrix (Fin n × Fin Poles.length) (Fin n) ℝ ×
    Matrix (Fin m) (Fin n × Fin Poles.length) ℝ ×
    CMat m n × CMat m n :=
  (gilKronA Poles, gilBmat Poles, gilC Poles Residues, Const, Diff)

/-- Python `self.Zero is None` for the modelled TransferFunction: the Zero
    attribute always holds a number or a matrix (the constructor default is
    the scalar 0 and the engine stores 0 or an array), never Python None,
    so the test is False on every representable value. -/
def pyZeroIsNone {m n : ℕ} (_ : TransferFunction m n) : Prop := False

open Classical in
/-- TransferFunction.to_SS [transferfunction.py lines 117-127].
    Python: `if self.Zero != 0 or self.Zero is not None: raise ValueError`;
    otherwise return the Gilbert realization quintuple. -/
def TransferFunction.to_SS {m n : ℕ} (tf : TransferFunction m n) :
    Except PyErr
      (Matrix (Fin n × Fin tf.Poles.length) (Fin n × Fin tf.Poles.length) ℝ ×
       Matrix (Fin n × Fin tf.Poles.length) (Fin n) ℝ ×
       Matrix (Fin m) (Fin n × Fin tf.Poles.length) ℝ ×
       CMat m n × CMat m n) :=
  if tf.Zero ≠ 0 ∨ ¬ pyZeroIsNone tf then Except.error PyErr.valueError
  else Except.ok (gilbert_realization tf.Poles tf.Residues tf.Const tf.Diff)

/-! ### The fitting engine state [vecfit.py class VecFit]

The mutable attribute set of a VecFit / RelaxedVecFit / FastRelaxedVecFit
instance.  Attributes that __init__ does not create yet (pole and residue
lists, Const/Diff/Zero, the TF cache, error metrics) are modelled with
fixed defaults; `hasattr(self, "TF")` is modelled by an Option field and
`hasattr(self, "d_relax")` likewise (d_relax exists exactly in the relaxed
engines, which set it in their residue solvers). -/

structure VFState (m n : ℕ) : Type where
  Data : List (CMat m n)
  Freq : List ℝ
  Omega : List ℝ
  Freq_scale : ℝ
  n_real : ℕ
  n_cpx : ℕ
  smart : Bool
  autoreduce : Bool
  fit_Const : Bool
  fit_Diff : Bool
  fit_Zero : Bool
  Poles_real : List ℂ
  Poles_cpx : List ℂ
  Residues_real : List (CMat m n)
  Residues_cpx : List (CMat m n)
  Residues_Sig_real : List ℝ
  Residues_Sig_cpx : List ℂ
  d_relax : Option ℝ
  Const : CMat m n
  Diff : CMat m n
  Zero : CMat m n
  TF : Option (TransferFunction m n)
  err_max : ℝ
  err_mean : ℝ

/-- np.max over a list of reals (np.max raises on an empty array; the
    empty case is modelled by 0 and never reached in the theorems). -/
def npMax (l : List ℝ) : ℝ :=
  match l with
  | [] => 0
  | x :: xs => xs.foldl max x

/-- VecFit._enforce_stability [vecfit.py lines 248-256]:
    Poles_real = -np.abs(Poles_real) + 0j (np.abs of a complex array is the
    modulus) and Poles_cpx = -np.abs(Poles_cpx.real) + 1j*Poles_cpx.imag. -/
def VFState.enforce_stability {m n : ℕ} (s : VFState m n) : VFState m n :=
  { s with
    Poles_real := s.Poles_real.map (fun p => ((-(Complex.abs p) : ℝ) : ℂ))
    Poles_cpx := s.Poles_cpx.map (fun p => ⟨-|p.re|, p.im⟩) }

/-- The companion matrix A of VecFit._compute_poles [vecfit.py lines
    490-500]: the first n_real diagonal entries are the real parts of the
    real poles; each complex pole i occupies the 2×2 block at
    j = n_real + 2*i with A[j,j] = A[j+1,j+1] = p.real, A[j,j+1] = p.imag,
    A[j+1,j] = -p.imag. -/
def VFState.companionA {m n : ℕ} (s : VFState m n) :
    Matrix (Fin (s.n_real + 2 * s.n_cpx)) (Fin (s.n_real + 2 * s.n_cpx)) ℝ :=
  Matrix.of fun k l =>
    if k = l then
      (if k.val < s.n_real then (s.Poles_real.getD k.val 0).re
       else (s.Poles_cpx.getD ((k.val - s.n_real) / 2) 0).re)
    else if s.n_real ≤ k.val ∧ (k.val - s.n_real) % 2 = 0 ∧ l.val = k.val + 1
      then (s.Poles_cpx.getD ((k.val - s.n_real) / 2) 0).im
    else if s.n_real ≤ l.val ∧ (l.val - s.n_real) % 2 = 0 ∧ k.val = l.val + 1
      then -(s.Poles_cpx.getD ((l.val - s.n_real) / 2) 0).im
    else 0

/-- The vector b of VecFit._compute_poles [vecfit.py lines 503-506]:
    b[:n_real] = 1 and b[n_real::2] = 2, zero elsewhere. -/
def VFState.bvec {m n : ℕ} (s : VFState m n) :
    Fin (s.n_real + 2 * s.n_cpx) → ℝ := fun k =>
  if k.val < s.n_real then 1
  else if (k.val - s.n_real) % 2 = 0 then 2 else 0

/-- The row vector r of VecFit._compute_poles [vecfit.py lines 509-510]:
    the real Sigma residues followed by the interleaved real and imaginary
    parts of the complex Sigma residues. -/
def VFState.rvec {m n : ℕ} (s : VFState m n) :
    Fin (s.n_real + 2 * s.n_cpx) → ℝ := fun l =>
  if l.val < s.n_real then s.Residues_Sig_real.getD l.val 0
  else if (l.val - s.n_real) % 2 = 0 then
    (s.Residues_Sig_cpx.getD ((l.val - s.n_real) / 2) 0).re
  else (s.Residues_Sig_cpx.getD ((l.val - s.n_real) / 2) 0).im

/-- The feedback matrix B = b.dot(r), divided by d_relax exactly when the
    attribute exists [vecfit.py lines 513-518]. -/
def VFState.feedbackB {m n : ℕ} (s : VFState m n) :
    Matrix (Fin (s.n_real + 2 * s.n_cpx)) (Fin (s.n_real + 2 * s.n_cpx)) ℝ :=
  Matrix.of fun k l =>
    match s.d_relax with
    | some d => s.bvec k * s.rvec l / d
    | none => s.bvec k * s.rvec l

/-- VecFit._compute_poles [vecfit.py lines 479-536].  The external
    eigensolver np.linalg.eigvals is the oracle parameter eig.  The
    eigenvalues of H = A - B are snapped to the real axis when
    |imag| < np.max(Omega) * 1e-12, then partitioned by the sign of the
    imaginary part, and the counts are updated to the partition sizes. -/
def VFState.compute_poles {m n : ℕ} (s : VFState m n)
    (eig : ∀ N : ℕ, Matrix (Fin N) (Fin N) ℝ → List ℂ) : VFState m n :=
  let H := s.companionA - s.feedbackB
  let Poles0 := eig (s.n_real + 2 * s.n_cpx) H
  let i_tol := npMax s.Omega * (1e-12 : ℝ)
  let Poles := Poles0.map (fun z => if |z.im| < i_tol then (z.re : ℂ) else z)
  let pr := Poles.filter (fun z => decide (z.im = 0))
  let pc := Poles.filter (fun z => decide (0 < z.im))
  { s with Poles_real := pr, Poles_cpx := pc,
           n_real := pr.length, n_cpx := pc.length }

/-- The TransferFunction built by VecFit._update_TF [vecfit.py lines
    283-304]: complex poles and residues are expanded to conjugate pairs
    [p, conj p] and [R, conj R], appended after the real ones, and
    everything is rescaled back to physical units by Freq_scale. -/
def VFState.builtTF {m n : ℕ} (s : VFState m n) : TransferFunction m n :=
  let Poles_cpx := s.Poles_cpx.flatMap (fun p => [p, star p])
  let Residues_cpx := s.Residues_cpx.flatMap (fun R => [R, R.map star])
  let Poles := s.Poles_real ++ Poles_cpx
  let Residues := s.Residues_real ++ Residues_cpx
  { Poles := Poles.map (fun p => p * (s.Freq_scale : ℂ))
    Residues := Residues.map (fun R => (s.Freq_scale : ℂ) • R)
    Const := s.Const
    Diff := (s.Freq_scale : ℂ)⁻¹ • s.Diff
    Zero := (s.Freq_scale : ℂ) • s.Zero }

/-- VecFit._update_TF stores the rebuilt model in the TF attribute. -/
def VFState.update_TF {m n : ℕ} (s : VFState m n) : VFState m n :=
  { s with TF := some s.builtTF }

/-- The physical frequency grid self.Freq * self.Freq_scale used by
    _reduce_order and _evaluate_fit. -/
def VFState.scaledFreq {m n : ℕ} (s : VFState m n) : List ℝ :=
  s.Freq.map (fun f => f * s.Freq_scale)

/-! ### Relative-error tensors [vecfit.py lines 274, 203, 231]

The error expressions divide elementwise by the data tensor with no guard
against zero entries.  relErrMat / relErrROMat are the literal
expressions; the Checked variants route every division through safeDiv,
which makes the division-by-zero branch explicit. -/

/-- Division with an explicit zero-divisor branch. -/
def safeDiv (a b : ℂ) : Option ℂ := if b = 0 then none else some (a / b)

/-- One sample of err = abs((Data - D_fit) / Data) [vecfit.py line 274]. -/
def relErrMat {m n : ℕ} (D F : CMat m n) : RMat m n :=
  Matrix.of fun i j => Complex.abs ((D i j - F i j) / D i j)

/-- One sample of err = abs((Data - (D_fit - R_fit)) / Data)
    [vecfit.py lines 203 and 231]. -/
def relErrROMat {m n : ℕ} (D F R : CMat m n) : RMat m n :=
  Matrix.of fun i j => Complex.abs ((D i j - (F i j - R i j)) / D i j)

open Classical in
/-- Collect an Option-valued matrix: some exactly when every entry is. -/
def mCollect {m n : ℕ} (f : Fin m → Fin n → Option ℝ) : Option (RMat m n) :=
  if h : ∀ i j, (f i j).isSome then
    some (Matrix.of fun i j => (f i j).get (h i j))
  else none

/-- Guarded version of relErrMat. -/
def relErrMatChecked {m n : ℕ} (D F : CMat m n) : Option (RMat m n) :=
  mCollect fun i j => (safeDiv (D i j - F i j) (D i j)).map Complex.abs

/-- Guarded version of relErrROMat. -/
def relErrROMatChecked {m n : ℕ} (D F R : CMat m n) : Option (RMat m n) :=
  mCollect fun i j => (safeDiv (D i j - (F i j - R i j)) (D i j)).map Complex.abs

/-- Collect a list of Options: some exactly when every element is. -/
def optList {α : Type} : List (Option α) → Option (List α)
  | [] => some []
  | some x :: t => (optList t).map (fun l => x :: l)
  | none :: _ => none

/-- The error tensor of _evaluate_fit over the whole grid
    [vecfit.py line 274]. -/
def relErr {m n : ℕ} (Data Dfit : List (CMat m n)) : List (RMat m n) :=
  List.zipWith relErrMat Data Dfit

/-- Guarded version of relErr. -/
def relErrChecked {m n : ℕ} (Data Dfit : List (CMat m n)) :
    Option (List (RMat m n)) :=
  optList (List.zipWith relErrMatChecked Data Dfit)

/-- The error tensor of the removal test of _reduce_order over the whole
    grid [vecfit.py lines 203 and 231]. -/
def relErrRO {m n : ℕ} (Data Dfit Rfit : List (CMat m n)) : List (RMat m n) :=
  List.zipWith₃ relErrROMat Data Dfit Rfit

/-- Guarded version of relErrRO. -/
def relErrROChecked {m n : ℕ} (Data Dfit Rfit : List (CMat m n)) :
    Option (List (RMat m n)) :=
  optList (List.zipWith₃ relErrROMatChecked Data Dfit Rfit)

/-- np.mean of an (N, m, n) stack of real matrices. -/
def meanMatList {m n : ℕ} (l : List (RMat m n)) : ℝ :=
  (l.map (fun M => ∑ i, ∑ j, M i j)).sum / (l.length * m * n)

/-- VecFit._evaluate_fit [vecfit.py lines 259-280].  Line 271 reads
    D_fit = self.TF(self.Freq * self.Freq_scale): this calls the
    TransferFunction instance itself, but class TransferFunction
    [transferfunction.py lines 54-152] defines no __call__ method, so the
    Python call raises TypeError before the error tensor of line 274 is
    formed.  (Lines 267-268 only set self.TF when absent; that state
    change is unobservable here because the exception propagates out.)
    The intended computation — self.TF.evaluate, as written at line 187 of
    _reduce_order and in the pre-refactor module vectorfitting.py — never
    runs. -/
def VFState.evaluate_fit {m n : ℕ} (_ : VFState m n) : Except PyErr (ℝ × ℝ) :=
  Except.error PyErr.typeError

/-- The single-pole TransferFunction([p*scale], [r*scale]) used by the
    real-pole scan of _reduce_order [vecfit.py lines 193-197]. -/
def poleContribReal {m n : ℕ} (σ : ℝ) (p : ℂ) (r : CMat m n) :
    TransferFunction m n :=
  { Poles := [p * (σ : ℂ)], Residues := [(σ : ℂ) • r],
    Const := 0, Diff := 0, Zero := 0 }

/-- The conjugate-pair TransferFunction([p*scale, conj(p*scale)],
    [r*scale, conj(r*scale)]) used by the complex scan of _reduce_order
    [vecfit.py lines 221-225]. -/
def poleContribCpx {m n : ℕ} (σ : ℝ) (p : ℂ) (r : CMat m n) :
    TransferFunction m n :=
  { Poles := [p * (σ : ℂ), star (p * (σ : ℂ))],
    Residues := [(σ : ℂ) • r, ((σ : ℂ) • r).map star],
    Const := 0, Diff := 0, Zero := 0 }

/-- The removal test of _reduce_order for one candidate: the mean of
    abs((Data - (D_fit - R_fit)) / Data), where R_fit is the candidate's
    own contribution evaluated on the physical grid
    [vecfit.py lines 200-203 and 228-231]. -/
def removalErr {m n : ℕ} (s : VFState m n) (Dfit : List (CMat m n))
    (tfc : TransferFunction m n) : ℝ :=
  meanMatList (relErrRO s.Data Dfit (tfc.evaluate s.scaledFreq))

/-- First element (with its position) whose removal error is below tol,
    scanning left to right: the for-loops of _reduce_order stop at the
    first hit and recurse. -/
def findHit {α : Type} (f : α → ℝ) (tol : ℝ) : List α → Option (ℕ × α)
  | [] => none
  | x :: xs =>
    if f x < tol then some (0, x)
    else (findHit f tol xs).map (fun p => (p.1 + 1, p.2))

/-- State update of a real-pole removal [vecfit.py lines 207-213]:
    np.delete at index i from the pole, residue and Sigma-residue lists
    and n_real -= 1. -/
def VFState.removeReal {m n : ℕ} (s : VFState m n) (i : ℕ) : VFState m n :=
  { s with Poles_real := s.Poles_real.eraseIdx i
           Residues_real := s.Residues_real.eraseIdx i
           n_real := s.n_real - 1
           Residues_Sig_real := s.Residues_Sig_real.eraseIdx i }

/-- State update of a complex-pair removal [vecfit.py lines 235-241]. -/
def VFState.removeCpx {m n : ℕ} (s : VFState m n) (i : ℕ) : VFState m n :=
  { s with Poles_cpx := s.Poles_cpx.eraseIdx i
           Residues_cpx := s.Residues_cpx.eraseIdx i
           n_cpx := s.n_cpx - 1
           Residues_Sig_cpx := s.Residues_Sig_cpx.eraseIdx i }

/-- D_fit = self.TF.evaluate(self.Freq * self.Freq_scale), the current fit
    evaluated once per _reduce_order pass [vecfit.py line 187]. -/
def roDfit {m n : ℕ} (s : VFState m n) : List (CMat m n) :=
  s.builtTF.evaluate s.scaledFreq

/-- The real-pole scan of _reduce_order [vecfit.py lines 190-215]: first
    index (with its pole-residue pair) whose removal error is below tol. -/
def roRealHit {m n : ℕ} (s : VFState m n) (tol : ℝ) :
    Option (ℕ × (ℂ × CMat m n)) :=
  findHit
    (fun pr => removalErr s (roDfit s) (poleContribReal s.Freq_scale pr.1 pr.2))
    tol (s.Poles_real.zip s.Residues_real)

/-- The complex-pair scan of _reduce_order [vecfit.py lines 218-243]. -/
def roCpxHit {m n : ℕ} (s : VFState m n) (tol : ℝ) :
    Option (ℕ × (ℂ × CMat m n)) :=
  findHit
    (fun pr => removalErr s (roDfit s) (poleContribCpx s.Freq_scale pr.1 pr.2))
    tol (s.Poles_cpx.zip s.Residues_cpx)

/-- VecFit._reduce_order [vecfit.py lines 174-245]: rebuild the model,
    evaluate the current fit once, scan the real poles and then the
    complex pairs for the first candidate whose removal error stays below
    tol; on a hit, delete it and restart the whole procedure on the
    updated state; stop when no candidate qualifies. -/
def VFState.reduce_order {m n : ℕ} (s : VFState m n) (tol : ℝ) : VFState m n :=
  match hR : roRealHit s.update_TF tol with
  | some ix => (s.update_TF.removeReal ix.1).reduce_order tol
  | none =>
    match hC : roCpxHit s.update_TF tol with
    | some ix => (s.update_TF.removeCpx ix.1).reduce_order tol
    | none => s.update_TF
termination_by s.Poles_real.length + s.Poles_cpx.length
decreasing_by
  all_goals
    have hfind : ∀ {α : Type} (f : α → ℝ) (tol : ℝ) (l : List α) (i : ℕ)
        (x : α), findHit f tol l = some (i, x) → i < l.length := by
      intro α f tol l
      induction l with
      | nil => intro i x h; simp [findHit] at h
      | cons y ys ih =>
        intro i x h
        rw [findHit] at h
        split_ifs at h with hy
        · simp only [Option.some.injEq, Prod.mk.injEq] at h
          obtain ⟨h1, h2⟩ := h
          subst h1
          simp
        · cases hfy : findHit f tol ys with
          | none => rw [hfy] at h; simp at h
          | some p =>
            rw [hfy] at h
            simp only [Option.map_some', Option.some.injEq] at h
            have hp := ih p.1 p.2 (by rw [hfy])
            have he : p.1 + 1 = i := congrArg Prod.fst h
            simp only [List.length_cons]
            omega
  · simp only [roRealHit] at hR
    have hi := hfind _ _ _ _ _ hR
    have hle : (s.update_TF.Poles_real.zip
        s.update_TF.Residues_real).length ≤ s.Poles_real.length := by
      rw [List.length_zip]; exact min_le_left _ _
    have hi2 : ix.1 < s.Poles_real.length := by omega
    show (s.Poles_real.eraseIdx ix.1).length + s.Poles_cpx.length <
      s.Poles_real.length + s.Poles_cpx.length
    rw [List.length_eraseIdx_of_lt hi2]
    omega
  · simp only [roCpxHit] at hC
    have hi := hfind _ _ _ _ _ hC
    have hle : (s.update_TF.Poles_cpx.zip
        s.update_TF.Residues_cpx).length ≤ s.Poles_cpx.length := by
      rw [List.length_zip]; exact min_le_left _ _
    have hi2 : ix.1 < s.Poles_cpx.length := by omega
    show s.Poles_real.length + (s.Poles_cpx.eraseIdx ix.1).length <
      s.Poles_real.length + s.Poles_cpx.length
    rw [List.length_eraseIdx_of_lt hi2]
    omega

/-- Loop body state evolution of fit up to and including _update_TF
    [vecfit.py lines 568-581]: optional order reduction (skipped at step
    0), pole relocation, stabilization, residue recomputation, model
    rebuild.  The residue solver (lines 390-475 and the relaxed / fast
    variants) is abstracted by the parameter resUpd; all three solvers
    write only residue, polynomial-term and relaxation fields. -/
def fitIter {m n : ℕ} (resUpd : VFState m n → VFState m n)
    (eig : ∀ N : ℕ, Matrix (Fin N) (Fin N) ℝ → List ℂ)
    (tol : ℝ) (step : ℕ) (s : VFState m n) : VFState m n :=
  let s0 := if s.autoreduce ∧ 0 < step then s.reduce_order tol else s
  ((s0.compute_poles eig).enforce_stability |> resUpd).update_TF

/-- VecFit.fit / RelaxedVecFit.fit [vecfit.py lines 557-592,
    relaxed_vecfit.py lines 212-247]: iterate fitIter, then evaluate the
    fit; return self.TF early when err_max < tol, and after max_steps
    return self.TF anyway.  The two engines differ only in the residue
    solver resUpd. -/
def fitLoop {m n : ℕ} (resUpd : VFState m n → VFState m n)
    (eig : ∀ N : ℕ, Matrix (Fin N) (Fin N) ℝ → List ℂ)
    (tol : ℝ) : ℕ → ℕ → VFState m n →
    Except PyErr (Option (TransferFunction m n))
  | 0, _, s => Except.ok s.TF
  | steps + 1, step, s =>
    let s2 := fitIter resUpd eig tol step s
    match s2.evaluate_fit with
    | Except.error e => Except.error e
    | Except.ok em =>
      let s3 := { s2 with err_max := em.1, err_mean := em.2 }
      if s3.err_max < tol then Except.ok s3.TF
      else fitLoop resUpd eig tol steps (step + 1) s3

/-- FastRelaxedVecFit.fit [fast_relaxed_vecfit.py lines 229-266]: same
    loop, but the Sigma solve (abstracted by sigUpd) runs before the
    optional order reduction, and the F-residue solve is resUpd. -/
def fitLoopFast {m n : ℕ} (sigUpd resUpd : VFState m n → VFState m n)
    (eig : ∀ N : ℕ, Matrix (Fin N) (Fin N) ℝ → List ℂ)
    (tol : ℝ) : ℕ → ℕ → VFState m n →
    Except PyErr (Option (TransferFunction m n))
  | 0, _, s => Except.ok s.TF
  | steps + 1, step, s =>
    let sA := sigUpd s
    let s2 := fitIter resUpd eig tol step sA
    match s2.evaluate_fit with
    | Except.error e => Except.error e
    | Except.ok em =>
      let s3 := { s2 with err_max := em.1, err_mean := em.2 }
      if s3.err_max < tol then Except.ok s3.TF
      else fitLoopFast sigUpd resUpd eig tol steps (step + 1) s3

/-- Scalar-data promotion [vecfit.py lines 76-77]: Data[:, np.newaxis,
    np.newaxis] turns a 1-D response of length N into an (N, 1, 1)
    tensor. -/
def promote1D (d : List ℂ) : List (CMat 1 1) :=
  d.map (fun z => Matrix.of fun _ _ => z)

/-- VecFit.__init__ on an already 3-D data tensor [vecfit.py lines 72-98,
    stopping before the _setup call]: stores Data, the frequency scale
    np.max(Freq), the normalized grids and the configuration. -/
def vfInitFull {m n : ℕ} (Data : List (CMat m n)) (Freq : List ℝ)
    (n_cpx n_real : ℕ) (smart autoreduce fit_Const fit_Diff fit_Zero : Bool) :
    VFState m n :=
  let σ := npMax Freq
  { Data := Data
    Freq_scale := σ
    Freq := Freq.map (fun f => f / σ)
    Omega := Freq.map (fun f => f / σ * 2 * Real.pi)
    n_real := n_real, n_cpx := n_cpx
    smart := smart, autoreduce := autoreduce
    fit_Const := fit_Const, fit_Diff := fit_Diff, fit_Zero := fit_Zero
    Poles_real := [], Poles_cpx := []
    Residues_real := [], Residues_cpx := []
    Residues_Sig_real := [], Residues_Sig_cpx := []
    d_relax := none
    Const := 0, Diff := 0, Zero := 0
    TF := none, err_max := 0, err_mean := 0 }

/-- VecFit.__init__ on a 1-D response [vecfit.py lines 76-77]: the branch
    Data.shape == Freq.shape is taken exactly when the data is 1-D with
    the same length as Freq (a 3-D tensor never equals the 1-tuple shape
    of Freq), and the data is stored promoted to an (N, 1, 1) tensor. -/
def vfInitSISO (d : List ℂ) (Freq : List ℝ)
    (n_cpx n_real : ℕ) (smart autoreduce fit_Const fit_Diff fit_Zero : Bool) :
    VFState 1 1 :=
  vfInitFull (promote1D d) Freq n_cpx n_real smart autoreduce
    fit_Const fit_Diff fit_Zero

/-- The pole-residue right-hand side of the realization identity,
    Const + s*Diff + sum of Residue_k/(s - Pole_k), as stated in the claim
    and computed by the evaluation loop body of the model. -/
def pr_eval {m n : ℕ} (Poles : List ℂ) (Residues : List (CMat m n))
    (Const Diff : CMat m n) (s : ℂ) : CMat m n :=
  Const + s • Diff +
    (List.zipWith (fun R p => (s - p)⁻¹ • R) Residues Poles).sum

/-- Entrywise real-to-complex embedding of a matrix. -/
def ofRealMat {I J : Type} (M : Matrix I J ℝ) : Matrix I J ℂ :=
  M.map Complex.ofReal

/-! ### Structured pole lists for the realization claim

A model whose pole array lists the real poles first and then each complex
pole immediately followed by its conjugate, with conjugate residues, is
parameterized by the list realPR of real poles (with real residue
matrices) and the list pairs of complex poles (one representative with its
residue per conjugate pair). -/

/-- Pole array of the structured model: real poles, then the pairs
    [p, conj p]. -/
def structPoles {m n : ℕ} (realPR : List (ℝ × RMat m n))
    (pairs : List (ℂ × CMat m n)) : List ℂ :=
  realPR.map (fun x => (x.1 : ℂ)) ++ pairs.flatMap (fun q => [q.1, star q.1])

/-- Residue array of the structured model: real residues, then the pairs
    [R, conj R]. -/
def structResidues {m n : ℕ} (realPR : List (ℝ × RMat m n))
    (pairs : List (ℂ × CMat m n)) : List (CMat m n) :=
  realPR.map (fun x => ofRealMat x.2) ++
    pairs.flatMap (fun q => [q.2, q.2.map star])

/-! ### Proof infrastructure for the realization identity

Explicit inverse of s*1 - a for the block-diagonal companion matrix a of a
structured pole list, written directly on natural-number indices: a real
pole at index k < nr contributes the 1x1 block 1/(s - p); the pair i
sitting at indices nr+2i, nr+2i+1 contributes the inverse of the 2x2 block
[[s-a, b],[-b, s-a]], namely [[s-a, -b],[b, s-a]]/D with
D = (s-a)^2 + b^2.  These are not part of the embedded program. -/

/-- Denominator of the 2x2 inverse block of pair i. -/
def pairDen (pp : ℕ → ℂ) (s : ℂ) (i : ℕ) : ℂ :=
  (s - ((pp i).re : ℂ)) ^ 2 + (((pp i).im : ℂ)) ^ 2

/-- Entry (k, l) of the inverse of s*1 - a, on ℕ indices; rp gives the
    real poles, pp the representative pole of each conjugate pair. -/
def wEntryN (nr : ℕ) (rp : ℕ → ℝ) (pp : ℕ → ℂ) (s : ℂ) (k l : ℕ) : ℂ :=
  if k < nr then (if l = k then (s - (rp k : ℂ))⁻¹ else 0)
  else if (k - nr) % 2 = 0 then
    (if l = k then
      (s - (((pp ((k - nr) / 2)).re : ℝ) : ℂ)) / pairDen pp s ((k - nr) / 2)
     else if l = k + 1 then
      -((((pp ((k - nr) / 2)).im : ℝ) : ℂ)) / pairDen pp s ((k - nr) / 2)
     else 0)
  else
    (if l = k then
      (s - (((pp ((k - nr) / 2)).re : ℝ) : ℂ)) / pairDen pp s ((k - nr) / 2)
     else if l = k - 1 then
      ((((pp ((k - nr) / 2)).im : ℝ) : ℂ)) / pairDen pp s ((k - nr) / 2)
     else 0)

/-- The candidate inverse of s*1 - a as a matrix. -/
def wMat (nr : ℕ) (rp : ℕ → ℝ) (pp : ℕ → ℂ) (s : ℂ) (N : ℕ) :
    Matrix (Fin N) (Fin N) ℂ :=
  Matrix.of fun k l => wEntryN nr rp pp s k.val l.val

/-- The solution of (s*1 - a) v = b on ℕ indices: 1/(s - p) at a real
    pole, 2(s - a)/D and 2b/D at the two slots of a pair. -/
def vEntryN (nr : ℕ) (rp : ℕ → ℝ) (pp : ℕ → ℂ) (s : ℂ) (k : ℕ) : ℂ :=
  if k < nr then (s - (rp k : ℂ))⁻¹
  else if (k - nr) % 2 = 0 then
    2 * (s - (((pp ((k - nr) / 2)).re : ℝ) : ℂ)) / pairDen pp s ((k - nr) / 2)
  else
    2 * ((((pp ((k - nr) / 2)).im : ℝ) : ℂ)) / pairDen pp s ((k - nr) / 2)

/-- Real pole number k of the structured model. -/
def rpOf {m n : ℕ} (realPR : List (ℝ × RMat m n)) (k : ℕ) : ℝ :=
  (realPR.getD k (0, 0)).1

/-- Residue matrix of real pole number k of the structured model. -/
def rrOf {m n : ℕ} (realPR : List (ℝ × RMat m n)) (k : ℕ) : RMat m n :=
  (realPR.getD k (0, 0)).2

/-- Representative pole of conjugate pair number i of the structured
    model. -/
def ppOf {m n : ℕ} (pairs : List (ℂ × CMat m n)) (i : ℕ) : ℂ :=
  (pairs.getD i (0, 0)).1

/-- Residue matrix of conjugate pair number i of the structured model. -/
def prOf {m n : ℕ} (pairs : List (ℂ × CMat m n)) (i : ℕ) : CMat m n :=
  (pairs.getD i (0, 0)).2

/-! ### Concrete engine states used to evaluate the theorems -/

/-- A minimal engine state (all lists empty, all matrices zero). -/
def emptyState (m n : ℕ) : VFState m n :=
  { Data := [], Freq := [], Omega := [], Freq_scale := 1
    n_real := 0, n_cpx := 0
    smart := false, autoreduce := false
    fit_Const := false, fit_Diff := false, fit_Zero := false
    Poles_real := [], Poles_cpx := []
    Residues_real := [], Residues_cpx := []
    Residues_Sig_real := [], Residues_Sig_cpx := []
    d_relax := none, Const := 0, Diff := 0, Zero := 0
    TF := none, err_max := 0, err_mean := 0 }

/-- State with one unstable real pole and one unstable complex pole. -/
def stabState : VFState 1 1 :=
  { emptyState 1 1 with Poles_real := [(2 : ℂ)], Poles_cpx := [⟨1, 3⟩] }

/-- State with consistent pole bookkeeping for the relocation witness. -/
def relocState : VFState 1 1 :=
  { emptyState 1 1 with
    Omega := [1]
    n_real := 1, n_cpx := 1
    Poles_real := [(-2 : ℂ)], Poles_cpx := [⟨-1, 5⟩]
    Residues_Sig_real := [3], Residues_Sig_cpx := [⟨1, 2⟩] }

/-- State with one complex pair for the conjugate-pairing witness. -/
def pairState : VFState 1 1 :=
  { emptyState 1 1 with
    Freq_scale := 2
    Poles_real := [(-3 : ℂ)], Poles_cpx := [⟨-1, 4⟩]
    Residues_real := [Matrix.of fun _ _ => (5 : ℂ)]
    Residues_cpx := [Matrix.of fun _ _ => (⟨6, 7⟩ : ℂ)] }

end

open Kronecker

/-! ## Helper lemmas -/

lemma complexAbs_of_im_zero (p : ℂ) (h : p.im = 0) : Complex.abs p = |p.re| := by
  rw [Complex.abs_apply, Complex.normSq_apply, h, mul_zero, add_zero, ← sq,
    Real.sqrt_sq_eq_abs]

lemma enforce_stability_nonpos {m n : ℕ} (t : VFState m n) :
    (∀ p ∈ t.enforce_stability.Poles_real, p.re ≤ 0) ∧
    (∀ p ∈ t.enforce_stability.Poles_cpx, p.re ≤ 0) := by
  constructor
  · intro p hp
    simp only [VFState.enforce_stability, List.mem_map] at hp
    obtain ⟨q, _, rfl⟩ := hp
    simp
  · intro p hp
    simp only [VFState.enforce_stability, List.mem_map] at hp
    obtain ⟨q, _, rfl⟩ := hp
    exact neg_nonpos.mpr (abs_nonneg _)

/-! ## Claim theorems -/

/-- C1 (status: code_bug).  The claim says every fit loop returns the
    current model on convergence and the last model on exhaustion, raising
    no error.  In the code, every iteration ends in _evaluate_fit, whose
    line 271 calls the TransferFunction instance self.TF although the
    class defines no __call__ method, so every fit invocation with at
    least one step raises TypeError instead of returning a model — for all
    three engines, every tolerance, every step budget and every state. -/
theorem c1_fit_always_raises_TypeError {m n : ℕ}
    (resUpd sigUpd : VFState m n → VFState m n)
    (eig : ∀ N : ℕ, Matrix (Fin N) (Fin N) ℝ → List ℂ)
    (tol : ℝ) (steps step : ℕ) (s : VFState m n) :
    fitLoop resUpd eig tol (steps + 1) step s =
      Except.error PyErr.typeError ∧
    fitLoopFast sigUpd resUpd eig tol (steps + 1) step s =
      Except.error PyErr.typeError := by
  constructor <;> rfl

/-- C2 (status: code_bug).  The claim says to_SS raises exactly when a
    pole-at-origin term is present.  The guard at transferfunction.py line
    122 is `self.Zero != 0 or self.Zero is not None`; since the Zero
    attribute is never Python None, the second disjunct is always true and
    to_SS raises ValueError for every model, including every model whose
    Zero term is the scalar 0. -/
theorem c2_to_SS_always_raises {m n : ℕ} (tf : TransferFunction m n) :
    tf.to_SS = Except.error PyErr.valueError := by
  simp [TransferFunction.to_SS, pyZeroIsNone]

/-- C3 (status: confirmed).  is_passive(Freq) returns (passive, Eigs)
    where passive holds iff every pole has strictly negative real part and
    at every grid frequency every eigenvalue of the Hermitian part
    H + Hᴴ of the evaluated response is strictly positive (the code
    compares the real parts that np.linalg.eigvals returns for the
    Hermitian matrix), and Eigs is the full per-frequency eigenvalue array,
    returned in all cases. -/
theorem c3_is_passive_characterization {d : ℕ}
    (eig : Matrix (Fin d) (Fin d) ℂ → List ℂ)
    (tf : TransferFunction d d) (Freq : List ℝ) :
    ((TransferFunction.is_passive eig tf Freq).1 ↔
      ((∀ p ∈ tf.Poles, p.re < 0) ∧
       ∀ f ∈ Freq, ∀ z ∈ eig (tf.evalAt f + (tf.evalAt f).conjTranspose),
         0 < z.re)) ∧
    (TransferFunction.is_passive eig tf Freq).2 =
      Freq.map (fun f =>
        (eig (tf.evalAt f + (tf.evalAt f).conjTranspose)).map Complex.re) := by
  constructor
  · show ((∀ p ∈ tf.Poles, p.re < 0) ∧
      ∀ row ∈ (Freq.map tf.evalAt).map
        (fun h => (eig (h + h.conjTranspose)).map Complex.re),
        ∀ x ∈ row, 0 < x) ↔ _
    rw [List.map_map]
    constructor
    · rintro ⟨h1, h2⟩
      refine ⟨h1, fun f hf z hz => ?_⟩
      exact h2 _ (List.mem_map_of_mem _ hf) _ (List.mem_map_of_mem _ hz)
    · rintro ⟨h1, h2⟩
      refine ⟨h1, fun row hrow x hx => ?_⟩
      obtain ⟨f, hf, rfl⟩ := List.mem_map.mp hrow
      obtain ⟨z, hz, rfl⟩ := List.mem_map.mp hx
      exact h2 f hf z hz
  · show (Freq.map tf.evalAt).map _ = _
    rw [List.map_map]
    rfl

/-- C4 (status: confirmed).  The stabilizer maps every pole with positive
    real part to -|Re p| + j Im p and leaves poles with non-positive real
    part fixed (the real group carries the engine invariant of zero
    imaginary part), and after the stabilization step of a fitting
    iteration — hence at the end of the whole iteration body, since the
    residue solvers and _update_TF leave the pole lists untouched — every
    pole in both groups has non-positive real part. -/
theorem c4_stabilizer_and_invariant {m n : ℕ} (s : VFState m n)
    (hreal : ∀ p ∈ s.Poles_real, p.im = 0) :
    (s.enforce_stability.Poles_real =
       s.Poles_real.map (fun p => if 0 < p.re then ⟨-|p.re|, p.im⟩ else p) ∧
     s.enforce_stability.Poles_cpx =
       s.Poles_cpx.map (fun p => if 0 < p.re then ⟨-|p.re|, p.im⟩ else p)) ∧
    ((∀ p ∈ s.enforce_stability.Poles_real, p.re ≤ 0) ∧
     (∀ p ∈ s.enforce_stability.Poles_cpx, p.re ≤ 0)) ∧
    (∀ resUpd : VFState m n → VFState m n,
      (∀ t, (resUpd t).Poles_real = t.Poles_real ∧
            (resUpd t).Poles_cpx = t.Poles_cpx) →
      ∀ (eig : ∀ N : ℕ, Matrix (Fin N) (Fin N) ℝ → List ℂ) (tol : ℝ)
        (step : ℕ),
        (∀ p ∈ (fitIter resUpd eig tol step s).Poles_real, p.re ≤ 0) ∧
        (∀ p ∈ (fitIter resUpd eig tol step s).Poles_cpx, p.re ≤ 0)) := by
  refine ⟨⟨?_, ?_⟩, enforce_stability_nonpos s, ?_⟩
  · simp only [VFState.enforce_stability]
    apply List.map_congr_left
    intro p hp
    have him := hreal p hp
    by_cases h : 0 < p.re
    · rw [if_pos h]
      apply Complex.ext
      · simp [complexAbs_of_im_zero p him]
      · simp [him]
    · rw [if_neg h]
      apply Complex.ext
      · simp only [Complex.ofReal_re]
        rw [complexAbs_of_im_zero p him, abs_of_nonpos (le_of_not_lt h),
          neg_neg]
      · simp [him]
  · simp only [VFState.enforce_stability]
    apply List.map_congr_left
    intro p _
    by_cases h : 0 < p.re
    · rw [if_pos h]
    · rw [if_neg h]
      apply Complex.ext
      · show -|p.re| = p.re
        rw [abs_of_nonpos (le_of_not_lt h), neg_neg]
      · rfl
  · intro resUpd hres eig tol step
    have hbody : ∀ t : VFState m n,
        (fitIter resUpd eig tol step t).Poles_real =
          (((if t.autoreduce ∧ 0 < step then t.reduce_order tol
              else t).compute_poles eig).enforce_stability).Poles_real ∧
        (fitIter resUpd eig tol step t).Poles_cpx =
          (((if t.autoreduce ∧ 0 < step then t.reduce_order tol
              else t).compute_poles eig).enforce_stability).Poles_cpx := by
      intro t
      constructor
      · show (resUpd _).Poles_real = _
        exact (hres _).1
      · show (resUpd _).Poles_cpx = _
        exact (hres _).2
    obtain ⟨e1, e2⟩ := hbody s
    rw [e1, e2]
    exact enforce_stability_nonpos _

/-- Closed instance of the C4 theorem at a state with one unstable real
    pole and one unstable complex pole. -/
theorem c4_witness :
    (stabState.enforce_stability.Poles_real =
       stabState.Poles_real.map
         (fun p => if 0 < p.re then ⟨-|p.re|, p.im⟩ else p) ∧
     stabState.enforce_stability.Poles_cpx =
       stabState.Poles_cpx.map
         (fun p => if 0 < p.re then ⟨-|p.re|, p.im⟩ else p)) ∧
    ((∀ p ∈ stabState.enforce_stability.Poles_real, p.re ≤ 0) ∧
     (∀ p ∈ stabState.enforce_stability.Poles_cpx, p.re ≤ 0)) ∧
    (∀ resUpd : VFState 1 1 → VFState 1 1,
      (∀ t, (resUpd t).Poles_real = t.Poles_real ∧
            (resUpd t).Poles_cpx = t.Poles_cpx) →
      ∀ (eig : ∀ N : ℕ, Matrix (Fin N) (Fin N) ℝ → List ℂ) (tol : ℝ)
        (step : ℕ),
        (∀ p ∈ (fitIter resUpd eig tol step stabState).Poles_real,
          p.re ≤ 0) ∧
        (∀ p ∈ (fitIter resUpd eig tol step stabState).Poles_cpx,
          p.re ≤ 0)) :=
  c4_stabilizer_and_invariant stabState (by
    intro p hp
    simp only [stabState, emptyState, List.mem_singleton] at hp
    subst hp
    rfl)

/-- C9 (status: confirmed).  A 1-D response with Data.shape == Freq.shape
    is stored promoted to an (N, 1, 1) tensor, and running the engine on
    the 1-D response gives exactly the same engine state — hence the same
    fitted model — as running it on the equivalent (N, 1, 1) tensor with
    the same configuration. -/
theorem c9_scalar_promotion (d : List ℂ) (t : List (CMat 1 1)) (Freq : List ℝ)
    (ncpx nreal : ℕ) (sm ar fC fD fZ : Bool)
    (hlen : t.length = d.length)
    (hent : ∀ (k : ℕ), k < t.length → k < d.length →
      ∀ i j : Fin 1, (t.getD k 0) i j = d.getD k 0) :
    ((promote1D d).length = d.length ∧
     ∀ (k : ℕ), k < d.length →
       ∀ i j : Fin 1, ((promote1D d).getD k 0) i j = d.getD k 0) ∧
    vfInitSISO d Freq ncpx nreal sm ar fC fD fZ =
      vfInitFull t Freq ncpx nreal sm ar fC fD fZ ∧
    ∀ (resUpd : VFState 1 1 → VFState 1 1)
      (eig : ∀ N : ℕ, Matrix (Fin N) (Fin N) ℝ → List ℂ)
      (tol : ℝ) (steps step : ℕ),
      fitLoop resUpd eig tol steps step
          (vfInitSISO d Freq ncpx nreal sm ar fC fD fZ) =
        fitLoop resUpd eig tol steps step
          (vfInitFull t Freq ncpx nreal sm ar fC fD fZ) := by
  have hpt : promote1D d = t := by
    apply List.ext_getElem
    · simp [promote1D, hlen]
    · intro k h1 h2
      have hkd : k < d.length := by simpa [promote1D] using h1
      have hkt : k < t.length := h2
      apply Matrix.ext
      intro i j
      have he := hent k hkt hkd i j
      rw [List.getD_eq_getElem _ _ hkt, List.getD_eq_getElem _ _ hkd] at he
      rw [he]
      try simp [promote1D]
  refine ⟨⟨by simp [promote1D], ?_⟩, ?_, ?_⟩
  · intro k hk i j
    have hk2 : k < (promote1D d).length := by simpa [promote1D] using hk
    rw [List.getD_eq_getElem _ _ hk2, List.getD_eq_getElem _ _ hk]
    try simp [promote1D]
  · unfold vfInitSISO
    rw [hpt]
  · intro resUpd eig tol steps step
    unfold vfInitSISO
    rw [hpt]

/-- Closed instance of the C9 theorem: the engine state built from the 1-D
    response [2] equals the one built from the (1,1,1) tensor [[[2]]]. -/
theorem c9_witness :
    vfInitSISO [(2 : ℂ)] [1] 2 1 false false false false false =
      vfInitFull [Matrix.of fun _ _ => (2 : ℂ)] [1] 2 1
        false false false false false :=
  (c9_scalar_promotion [(2 : ℂ)] [Matrix.of fun _ _ => (2 : ℂ)] [1] 2 1
    false false false false false rfl
    (by intro k hk1 hk2 i j
        have : k = 0 := by simpa using hk1
        subst this
        rfl)).2.1

/-! ### Division-guard lemmas for C10 -/

lemma mCollect_isSome_iff {m n : ℕ} (f : Fin m → Fin n → Option ℝ) :
    (mCollect f).isSome ↔ ∀ i j, (f i j).isSome := by
  unfold mCollect
  split_ifs with h <;> simp [h]

lemma mCollect_eq_some {m n : ℕ} (f : Fin m → Fin n → Option ℝ)
    (M : RMat m n) (h : mCollect f = some M) :
    ∀ i j, f i j = some (M i j) := by
  unfold mCollect at h
  split_ifs at h with hall
  simp only [Option.some.injEq] at h
  subst h
  intro i j
  exact (Option.some_get (hall i j)).symm

lemma safeDivAbs_isSome (a b : ℂ) :
    ((safeDiv a b).map Complex.abs).isSome ↔ b ≠ 0 := by
  unfold safeDiv
  split_ifs with h <;> simp [h]

lemma relErrMatChecked_isSome_iff {m n : ℕ} (D F : CMat m n) :
    (relErrMatChecked D F).isSome ↔ ∀ i j, D i j ≠ 0 := by
  unfold relErrMatChecked
  rw [mCollect_isSome_iff]
  simp only [safeDivAbs_isSome]

lemma relErrROMatChecked_isSome_iff {m n : ℕ} (D F R : CMat m n) :
    (relErrROMatChecked D F R).isSome ↔ ∀ i j, D i j ≠ 0 := by
  unfold relErrROMatChecked
  rw [mCollect_isSome_iff]
  simp only [safeDivAbs_isSome]

lemma relErrMatChecked_eq_some {m n : ℕ} (D F : CMat m n) (M : RMat m n)
    (h : relErrMatChecked D F = some M) : M = relErrMat D F := by
  have h2 := mCollect_eq_some _ _ h
  apply Matrix.ext
  intro i j
  have hij := h2 i j
  have hne : D i j ≠ 0 := by
    by_contra h0
    simp [safeDiv, h0] at hij
  simp only [safeDiv, if_neg hne, Option.map_some', Option.some.injEq] at hij
  rw [relErrMat]
  exact hij.symm

lemma relErrROMatChecked_eq_some {m n : ℕ} (D F R : CMat m n) (M : RMat m n)
    (h : relErrROMatChecked D F R = some M) : M = relErrROMat D F R := by
  have h2 := mCollect_eq_some _ _ h
  apply Matrix.ext
  intro i j
  have hij := h2 i j
  have hne : D i j ≠ 0 := by
    by_contra h0
    simp [safeDiv, h0] at hij
  simp only [safeDiv, if_neg hne, Option.map_some', Option.some.injEq] at hij
  rw [relErrROMat]
  exact hij.symm

lemma optList_cons_isSome {α : Type} (x : Option α) (t : List (Option α)) :
    (optList (x :: t)).isSome ↔ x.isSome ∧ (optList t).isSome := by
  cases x with
  | none => simp [optList]
  | some v => cases h : optList t <;> simp [optList, h]

lemma optList_cons_some {α : Type} (x : Option α) (t : List (Option α))
    (r : List α) (h : optList (x :: t) = some r) :
    ∃ v tr, x = some v ∧ optList t = some tr ∧ r = v :: tr := by
  cases x with
  | none => simp [optList] at h
  | some v =>
    cases ht : optList t with
    | none => simp [optList, ht] at h
    | some tr =>
      simp only [optList, ht, Option.map_some', Option.some.injEq] at h
      exact ⟨v, tr, rfl, rfl, h.symm⟩

/-- C10 (status: confirmed).  The relative-error computations of
    _evaluate_fit (line 274) and _reduce_order (lines 203, 231) divide
    elementwise by the data tensor with no guard: when every data entry is
    nonzero every division succeeds (the division-by-zero branch of the
    guarded model is unreachable and the guarded computation returns
    exactly the unguarded tensors), and the nonzero-data precondition is
    necessary — a single zero entry makes the guarded computation fail. -/
theorem c10_relative_error_divisions {m n : ℕ}
    (Data Dfit Rfit : List (CMat m n))
    (h1 : Dfit.length = Data.length) (h2 : Rfit.length = Data.length) :
    ((relErrChecked Data Dfit).isSome ↔ ∀ M ∈ Data, ∀ i j, M i j ≠ 0) ∧
    ((relErrROChecked Data Dfit Rfit).isSome ↔
      ∀ M ∈ Data, ∀ i j, M i j ≠ 0) ∧
    (∀ L, relErrChecked Data Dfit = some L → L = relErr Data Dfit) ∧
    (∀ L, relErrROChecked Data Dfit Rfit = some L →
      L = relErrRO Data Dfit Rfit) := by
  refine ⟨?_, ?_, ?_, ?_⟩
  · clear h2
    induction Data generalizing Dfit with
    | nil =>
      have : Dfit = [] := List.eq_nil_of_length_eq_zero (by simpa using h1)
      subst this
      simp [relErrChecked, optList]
    | cons D Ds ih =>
      cases Dfit with
      | nil => simp at h1
      | cons F Fs =>
        have h1' : Fs.length = Ds.length := by simpa using h1
        have hih := ih Fs h1'
        unfold relErrChecked at hih ⊢
        rw [List.zipWith_cons_cons, optList_cons_isSome,
          relErrMatChecked_isSome_iff, hih]
        simp [List.forall_mem_cons]
  · induction Data generalizing Dfit Rfit with
    | nil =>
      have hD : Dfit = [] := List.eq_nil_of_length_eq_zero (by simpa using h1)
      have hRf : Rfit = [] := List.eq_nil_of_length_eq_zero (by simpa using h2)
      subst hD; subst hRf
      simp [relErrROChecked, List.zipWith₃, optList]
    | cons D Ds ih =>
      cases Dfit with
      | nil => simp at h1
      | cons F Fs =>
        cases Rfit with
        | nil => simp at h2
        | cons R Rs =>
          have h1' : Fs.length = Ds.length := by simpa using h1
          have h2' : Rs.length = Ds.length := by simpa using h2
          have hih := ih Fs Rs h1' h2'
          unfold relErrROChecked at hih ⊢
          rw [show List.zipWith₃ relErrROMatChecked (D :: Ds) (F :: Fs)
                (R :: Rs) =
              relErrROMatChecked D F R ::
                List.zipWith₃ relErrROMatChecked Ds Fs Rs from rfl,
            optList_cons_isSome, relErrROMatChecked_isSome_iff, hih]
          simp [List.forall_mem_cons]
  · clear h2
    induction Data generalizing Dfit with
    | nil =>
      have hD : Dfit = [] := List.eq_nil_of_length_eq_zero (by simpa using h1)
      subst hD
      intro L hL
      simp [relErrChecked, optList] at hL
      subst hL
      simp [relErr]
    | cons D Ds ih =>
      cases Dfit with
      | nil => simp at h1
      | cons F Fs =>
        have h1' : Fs.length = Ds.length := by simpa using h1
        intro L hL
        unfold relErrChecked at hL
        rw [List.zipWith_cons_cons] at hL
        obtain ⟨v, tr, hv, htr, rfl⟩ := optList_cons_some _ _ _ hL
        have e1 := relErrMatChecked_eq_some _ _ _ hv
        have e2 := ih Fs h1' tr (by simpa [relErrChecked] using htr)
        simp only [relErr, List.zipWith_cons_cons] at e2 ⊢
        rw [e1, e2]
  · induction Data generalizing Dfit Rfit with
    | nil =>
      have hD : Dfit = [] := List.eq_nil_of_length_eq_zero (by simpa using h1)
      have hRf : Rfit = [] := List.eq_nil_of_length_eq_zero (by simpa using h2)
      subst hD; subst hRf
      intro L hL
      simp [relErrROChecked, List.zipWith₃, optList] at hL
      subst hL
      simp [relErrRO, List.zipWith₃]
    | cons D Ds ih =>
      cases Dfit with
      | nil => simp at h1
      | cons F Fs =>
        cases Rfit with
        | nil => simp at h2
        | cons R Rs =>
          have h1' : Fs.length = Ds.length := by simpa using h1
          have h2' : Rs.length = Ds.length := by simpa using h2
          intro L hL
          unfold relErrROChecked at hL
          rw [show List.zipWith₃ relErrROMatChecked (D :: Ds) (F :: Fs)
                (R :: Rs) =
              relErrROMatChecked D F R ::
                List.zipWith₃ relErrROMatChecked Ds Fs Rs from rfl] at hL
          obtain ⟨v, tr, hv, htr, rfl⟩ := optList_cons_some _ _ _ hL
          have e1 := relErrROMatChecked_eq_some _ _ _ _ hv
          have e2 := ih Fs Rs h1' h2' tr (by simpa [relErrROChecked] using htr)
          have hstep : relErrRO (D :: Ds) (F :: Fs) (R :: Rs) =
              relErrROMat D F R :: relErrRO Ds Fs Rs := rfl
          rw [hstep, e1, e2]

/-- Closed instance of the C10 theorem: for the one-sample tensor with the
    single entry 1 every division of the error evaluation succeeds. -/
theorem c10_witness :
    (relErrChecked [(Matrix.of fun _ _ => (1 : ℂ))]
      [(0 : CMat 1 1)]).isSome :=
  ((c10_relative_error_divisions [(Matrix.of fun _ _ => (1 : ℂ))]
      [(0 : CMat 1 1)] [(0 : CMat 1 1)] rfl rfl).1).mpr (by
    intro M hM i j
    simp only [List.mem_singleton] at hM
    subst hM
    simp)

/-! ### Maximum of the frequency grid -/

lemma foldlMax_spec (xs : List ℝ) : ∀ x : ℝ,
    xs.foldl max x ∈ x :: xs ∧ ∀ y ∈ x :: xs, y ≤ xs.foldl max x := by
  induction xs with
  | nil => intro x; simp
  | cons y ys ih =>
    intro x
    obtain ⟨ihm, ihb⟩ := ih (max x y)
    have hfold : List.foldl max x (y :: ys) = List.foldl max (max x y) ys :=
      rfl
    constructor
    · rw [hfold]
      rcases List.mem_cons.mp ihm with hm | hm
      · rw [hm]
        rcases max_choice x y with hc | hc <;> rw [hc] <;> simp
      · simp [List.mem_cons, Or.inr (Or.inr hm)]
    · intro z hz
      rw [hfold]
      rcases List.mem_cons.mp hz with rfl | hz2
      · calc z ≤ max z y := le_max_left _ _
          _ ≤ _ := ihb _ (List.mem_cons_self _ _)
      · rcases List.mem_cons.mp hz2 with rfl | hz3
        · calc z ≤ max x z := le_max_right _ _
            _ ≤ _ := ihb _ (List.mem_cons_self _ _)
        · exact ihb _ (List.mem_cons_of_mem _ hz3)

lemma npMax_spec (l : List ℝ) (h : l ≠ []) :
    npMax l ∈ l ∧ ∀ y ∈ l, y ≤ npMax l := by
  match l, h with
  | x :: xs, _ => exact foldlMax_spec xs x

/-- C5 (status: confirmed).  _compute_poles takes the eigenvalues of
    A - B with A the real block companion matrix and B the rank-1 feedback
    matrix b·r, divided by d_relax exactly when the relaxation constant
    exists; every eigenvalue with |imag| below np.max(Omega) * 1e-12 — and
    np.max(Omega) is max |omega| for the positive frequency grid — is
    snapped to its real part; the results are partitioned into the
    zero-imaginary real group and the strictly-positive-imaginary complex
    group (conjugates dropped), and n_real, n_cpx become the partition
    sizes. -/
theorem c5_pole_relocation {m n : ℕ} (s : VFState m n)
    (eig : ∀ N : ℕ, Matrix (Fin N) (Fin N) ℝ → List ℂ)
    (hne : s.Omega ≠ []) (hpos : ∀ w ∈ s.Omega, 0 < w) :
    (npMax s.Omega ∈ s.Omega ∧ ∀ w ∈ s.Omega, |w| ≤ npMax s.Omega) ∧
    ((s.d_relax = none →
        s.feedbackB = Matrix.of fun k l => s.bvec k * s.rvec l) ∧
     (∀ dr, s.d_relax = some dr →
        s.feedbackB = Matrix.of fun k l => s.bvec k * s.rvec l / dr)) ∧
    ((s.compute_poles eig).Poles_real =
       ((eig _ (s.companionA - s.feedbackB)).map
         (fun z => if |z.im| < npMax s.Omega * (1e-12 : ℝ)
           then (z.re : ℂ) else z)).filter (fun z => decide (z.im = 0)) ∧
     (s.compute_poles eig).Poles_cpx =
       ((eig _ (s.companionA - s.feedbackB)).map
         (fun z => if |z.im| < npMax s.Omega * (1e-12 : ℝ)
           then (z.re : ℂ) else z)).filter (fun z => decide (0 < z.im))) ∧
    ((s.compute_poles eig).n_real = (s.compute_poles eig).Poles_real.length ∧
     (s.compute_poles eig).n_cpx = (s.compute_poles eig).Poles_cpx.length) ∧
    ((∀ z ∈ (s.compute_poles eig).Poles_real, z.im = 0) ∧
     (∀ z ∈ (s.compute_poles eig).Poles_cpx, 0 < z.im)) := by
  obtain ⟨hmem, hbound⟩ := npMax_spec s.Omega hne
  refine ⟨⟨hmem, ?_⟩, ⟨?_, ?_⟩, ⟨rfl, rfl⟩, ⟨rfl, rfl⟩, ?_, ?_⟩
  · intro w hw
    rw [abs_of_pos (hpos w hw)]
    exact hbound w hw
  · intro h
    apply Matrix.ext
    intro k l
    simp [VFState.feedbackB, h]
  · intro dr h
    apply Matrix.ext
    intro k l
    simp [VFState.feedbackB, h]
  · intro z hz
    have := List.of_mem_filter hz
    simpa using this
  · intro z hz
    have := List.of_mem_filter hz
    simpa using this

/-- Closed instance of the C5 theorem at a consistent one-real one-complex
    state with the empty eigenvalue oracle. -/
theorem c5_witness :
    ((relocState.compute_poles fun _ _ => []).n_real =
      (relocState.compute_poles fun _ _ => []).Poles_real.length ∧
     (relocState.compute_poles fun _ _ => []).n_cpx =
      (relocState.compute_poles fun _ _ => []).Poles_cpx.length) :=
  (c5_pole_relocation relocState (fun _ _ => [])
    (by simp [relocState, emptyState])
    (by intro w hw
        simp only [relocState, emptyState, List.mem_singleton] at hw
        subst hw; norm_num)).2.2.2.1

/-! ### Indexing lemmas for conjugate-pair expansion -/

lemma flat2_length {α β : Type} (f g : α → β) (l : List α) :
    (l.flatMap fun x => [f x, g x]).length = 2 * l.length := by
  induction l with
  | nil => simp
  | cons x xs ih =>
    show (f x :: g x :: xs.flatMap fun x => [f x, g x]).length = _
    simp only [List.length_cons, ih, List.length_cons]
    omega

lemma flat2_getElem_even {α β : Type} (f g : α → β) (l : List α) (i : ℕ)
    (hi : i < l.length)
    (hb : 2 * i < (l.flatMap fun x => [f x, g x]).length) :
    (l.flatMap fun x => [f x, g x])[2 * i] = f l[i] := by
  induction l generalizing i with
  | nil => simp at hi
  | cons x xs ih =>
    cases i with
    | zero => rfl
    | succ j =>
      have hj : j < xs.length := by simpa using hi
      have hb' : 2 * j < (xs.flatMap fun x => [f x, g x]).length := by
        rw [flat2_length]; omega
      have h2 : 2 * (j + 1) = 2 * j + 1 + 1 := by ring
      show (f x :: g x :: xs.flatMap fun x => [f x, g x])[2 * (j + 1)] = _
      simp only [h2, List.getElem_cons_succ]
      rw [ih j hj hb']

lemma flat2_getElem_odd {α β : Type} (f g : α → β) (l : List α) (i : ℕ)
    (hi : i < l.length)
    (hb : 2 * i + 1 < (l.flatMap fun x => [f x, g x]).length) :
    (l.flatMap fun x => [f x, g x])[2 * i + 1] = g l[i] := by
  induction l generalizing i with
  | nil => simp at hi
  | cons x xs ih =>
    cases i with
    | zero => rfl
    | succ j =>
      have hj : j < xs.length := by simpa using hi
      have hb' : 2 * j + 1 < (xs.flatMap fun x => [f x, g x]).length := by
        rw [flat2_length]; omega
      have h2 : 2 * (j + 1) + 1 = 2 * j + 1 + 1 + 1 := by ring
      show (f x :: g x :: xs.flatMap fun x => [f x, g x])[2 * (j + 1) + 1] = _
      simp only [h2, List.getElem_cons_succ]
      rw [ih j hj hb']

lemma map_append_getD_left {β : Type} (φ : β → β) (pre rest : List β)
    (k : ℕ) (hk : k < pre.length) (d : β) :
    ((pre ++ rest).map φ).getD k d = φ pre[k] := by
  have hb : k < ((pre ++ rest).map φ).length := by
    simp only [List.length_map, List.length_append]; omega
  rw [List.getD_eq_getElem _ _ hb, List.getElem_map,
    List.getElem_append_left hk]

lemma map_append_flat2_getD_even {α β : Type} (φ : β → β) (pre : List β)
    (f g : α → β) (l : List α) (i : ℕ) (hi : i < l.length) (d : β) :
    ((pre ++ l.flatMap fun x => [f x, g x]).map φ).getD
      (pre.length + 2 * i) d = φ (f l[i]) := by
  have hflen : (l.flatMap fun x => [f x, g x]).length = 2 * l.length :=
    flat2_length f g l
  have hb : pre.length + 2 * i <
      ((pre ++ l.flatMap fun x => [f x, g x]).map φ).length := by
    simp only [List.length_map, List.length_append, hflen]; omega
  rw [List.getD_eq_getElem _ _ hb, List.getElem_map]
  congr 1
  rw [List.getElem_append_right (by omega)]
  simp only [Nat.add_sub_cancel_left]
  exact flat2_getElem_even f g l i hi (by rw [hflen]; omega)

lemma map_append_flat2_getD_odd {α β : Type} (φ : β → β) (pre : List β)
    (f g : α → β) (l : List α) (i : ℕ) (hi : i < l.length) (d : β) :
    ((pre ++ l.flatMap fun x => [f x, g x]).map φ).getD
      (pre.length + 2 * i + 1) d = φ (g l[i]) := by
  have hflen : (l.flatMap fun x => [f x, g x]).length = 2 * l.length :=
    flat2_length f g l
  have hb : pre.length + 2 * i + 1 <
      ((pre ++ l.flatMap fun x => [f x, g x]).map φ).length := by
    simp only [List.length_map, List.length_append, hflen]; omega
  rw [List.getD_eq_getElem _ _ hb, List.getElem_map]
  congr 1
  rw [List.getElem_append_right (by omega)]
  have hidx : pre.length + 2 * i + 1 - pre.length = 2 * i + 1 := by omega
  simp only [hidx]
  exact flat2_getElem_odd f g l i hi (by rw [hflen]; omega)

lemma builtTF_poles_length {m n : ℕ} (s : VFState m n) :
    s.builtTF.Poles.length =
      s.Poles_real.length + 2 * s.Poles_cpx.length := by
  show ((s.Poles_real ++
    s.Poles_cpx.flatMap fun p => [p, star p]).map _).length = _
  simp only [List.length_map, List.length_append,
    flat2_length (fun p : ℂ => p) star]

lemma builtTF_res_length {m n : ℕ} (s : VFState m n) :
    s.builtTF.Residues.length =
      s.Residues_real.length + 2 * s.Residues_cpx.length := by
  show ((s.Residues_real ++
    s.Residues_cpx.flatMap fun R => [R, R.map star]).map _).length = _
  simp only [List.length_map, List.length_append,
    flat2_length (fun R : CMat m n => R) (fun R => R.map star)]

lemma builtTF_poles_left {m n : ℕ} (s : VFState m n) (k : ℕ)
    (hk : k < s.Poles_real.length) :
    s.builtTF.Poles.getD k 0 = s.Poles_real[k] * (s.Freq_scale : ℂ) :=
  map_append_getD_left _ _ _ k hk 0

lemma builtTF_poles_even {m n : ℕ} (s : VFState m n) (i : ℕ)
    (hi : i < s.Poles_cpx.length) :
    s.builtTF.Poles.getD (s.Poles_real.length + 2 * i) 0 =
      s.Poles_cpx[i] * (s.Freq_scale : ℂ) :=
  map_append_flat2_getD_even (fun p => p * (s.Freq_scale : ℂ))
    s.Poles_real (fun z => z) star s.Poles_cpx i hi 0

lemma builtTF_poles_odd {m n : ℕ} (s : VFState m n) (i : ℕ)
    (hi : i < s.Poles_cpx.length) :
    s.builtTF.Poles.getD (s.Poles_real.length + 2 * i + 1) 0 =
      star s.Poles_cpx[i] * (s.Freq_scale : ℂ) :=
  map_append_flat2_getD_odd (fun p => p * (s.Freq_scale : ℂ))
    s.Poles_real (fun z => z) star s.Poles_cpx i hi 0

lemma builtTF_res_even {m n : ℕ} (s : VFState m n) (i : ℕ)
    (hi : i < s.Residues_cpx.length) :
    s.builtTF.Residues.getD (s.Residues_real.length + 2 * i) 0 =
      (s.Freq_scale : ℂ) • s.Residues_cpx[i] :=
  map_append_flat2_getD_even (fun R => (s.Freq_scale : ℂ) • R)
    s.Residues_real (fun R => R) (fun R => R.map star) s.Residues_cpx i hi 0

lemma builtTF_res_odd {m n : ℕ} (s : VFState m n) (i : ℕ)
    (hi : i < s.Residues_cpx.length) :
    s.builtTF.Residues.getD (s.Residues_real.length + 2 * i + 1) 0 =
      (s.Freq_scale : ℂ) • (s.Residues_cpx[i]).map star :=
  map_append_flat2_getD_odd (fun R => (s.Freq_scale : ℂ) • R)
    s.Residues_real (fun R => R) (fun R => R.map star) s.Residues_cpx i hi 0

lemma smul_map_star_comm {m n : ℕ} (σ : ℝ) (R : CMat m n) :
    ((σ : ℂ) • R).map star = (σ : ℂ) • R.map star := by
  apply Matrix.ext
  intro a b
  simp [Matrix.map_apply, Matrix.smul_apply, smul_eq_mul, Complex.star_def,
    map_mul, Complex.conj_ofReal]

lemma map_star_star {m n : ℕ} (R : CMat m n) : (R.map star).map star = R := by
  apply Matrix.ext
  intro a b
  simp [Matrix.map_apply]

/-- C6 (status: confirmed).  The exposed model rebuilt by _update_TF
    contains, for each stored complex pole p with residue R, the scaled
    pole and its conjugate at adjacent positions with the corresponding
    conjugate residues; consequently every complex pole of the exposed
    model has its conjugate present, with the conjugate residue, at an
    adjacent position.  The statement quantifies over arbitrary engine
    states (any solver strategy, any polynomial-term configuration); the
    real group carries the engine invariant of zero imaginary parts and
    the residue lists match the pole lists in length. -/
theorem c6_conjugate_pairing {m n : ℕ} (s : VFState m n)
    (hlr : s.Residues_real.length = s.Poles_real.length)
    (hlc : s.Residues_cpx.length = s.Poles_cpx.length)
    (hreal : ∀ p ∈ s.Poles_real, p.im = 0) :
    s.update_TF.TF = some s.builtTF ∧
    s.builtTF.Poles.length = s.Poles_real.length + 2 * s.Poles_cpx.length ∧
    s.builtTF.Residues.length = s.builtTF.Poles.length ∧
    (∀ (i : ℕ), i < s.Poles_cpx.length →
      s.builtTF.Poles.getD (s.Poles_real.length + 2 * i) 0 =
        s.Poles_cpx.getD i 0 * (s.Freq_scale : ℂ) ∧
      s.builtTF.Poles.getD (s.Poles_real.length + 2 * i + 1) 0 =
        star (s.Poles_cpx.getD i 0 * (s.Freq_scale : ℂ)) ∧
      s.builtTF.Residues.getD (s.Poles_real.length + 2 * i) 0 =
        (s.Freq_scale : ℂ) • s.Residues_cpx.getD i 0 ∧
      s.builtTF.Residues.getD (s.Poles_real.length + 2 * i + 1) 0 =
        ((s.Freq_scale : ℂ) • s.Residues_cpx.getD i 0).map star) ∧
    (∀ (k : ℕ), k < s.builtTF.Poles.length →
      (s.builtTF.Poles.getD k 0).im ≠ 0 →
      ∃ k2, k2 < s.builtTF.Poles.length ∧ (k2 = k + 1 ∨ k = k2 + 1) ∧
        s.builtTF.Poles.getD k2 0 = star (s.builtTF.Poles.getD k 0) ∧
        s.builtTF.Residues.getD k2 0 =
          (s.builtTF.Residues.getD k 0).map star) := by
  have hσstar : star ((s.Freq_scale : ℂ)) = (s.Freq_scale : ℂ) := by
    simp [Complex.star_def, Complex.conj_ofReal]
  have hlen := builtTF_poles_length s
  refine ⟨rfl, hlen, ?_, ?_, ?_⟩
  · rw [builtTF_res_length, hlen, hlr, hlc]
  · intro i hi
    have hic : i < s.Residues_cpx.length := by omega
    have hgp : s.Poles_cpx.getD i 0 = s.Poles_cpx[i] :=
      List.getD_eq_getElem _ _ hi
    have hgr : s.Residues_cpx.getD i 0 = s.Residues_cpx[i] :=
      List.getD_eq_getElem _ _ hic
    refine ⟨?_, ?_, ?_, ?_⟩
    · rw [builtTF_poles_even s i hi, hgp]
    · rw [builtTF_poles_odd s i hi, hgp, star_mul', hσstar]
    · have := builtTF_res_even s i hic
      rw [hlr] at this
      rw [this, hgr]
    · have := builtTF_res_odd s i hic
      rw [hlr] at this
      rw [this, hgr, smul_map_star_comm]
  · intro k hk him
    by_cases hkr : k < s.Poles_real.length
    · exfalso
      apply him
      rw [builtTF_poles_left s k hkr]
      have hmem : s.Poles_real[k] ∈ s.Poles_real := List.getElem_mem _
      have him0 := hreal _ hmem
      simp [Complex.mul_im, him0]
    · push_neg at hkr
      have hk2 : k - s.Poles_real.length < 2 * s.Poles_cpx.length := by
        rw [hlen] at hk; omega
      have hidiv := Nat.div_add_mod (k - s.Poles_real.length) 2
      rcases Nat.mod_two_eq_zero_or_one (k - s.Poles_real.length) with hp | hp
      · -- first slot of pair i: the conjugate sits at k + 1
        set i := (k - s.Poles_real.length) / 2 with hidef
        have hki : k = s.Poles_real.length + 2 * i := by omega
        have hilt : i < s.Poles_cpx.length := by omega
        have hic : i < s.Residues_cpx.length := by omega
        have hre := builtTF_res_even s i hic
        have hro := builtTF_res_odd s i hic
        rw [hlr] at hre hro
        refine ⟨k + 1, by omega, Or.inl rfl, ?_, ?_⟩
        · rw [hki]
          rw [builtTF_poles_even s i hilt, builtTF_poles_odd s i hilt,
            star_mul', hσstar]
        · rw [hki, hre, hro, smul_map_star_comm]
      · -- second slot of pair i: the conjugate sits at k - 1
        set i := (k - s.Poles_real.length) / 2 with hidef
        have hki : k = s.Poles_real.length + 2 * i + 1 := by omega
        have hilt : i < s.Poles_cpx.length := by omega
        have hic : i < s.Residues_cpx.length := by omega
        have hre := builtTF_res_even s i hic
        have hro := builtTF_res_odd s i hic
        rw [hlr] at hre hro
        refine ⟨s.Poles_real.length + 2 * i, by omega, Or.inr (by omega),
          ?_, ?_⟩
        · rw [hki]
          rw [builtTF_poles_even s i hilt, builtTF_poles_odd s i hilt,
            star_mul', hσstar, star_star]
        · rw [hki, hre, hro, smul_map_star_comm, map_star_star]

/-- Closed instance of the C6 theorem at a state with one real pole and
    one stored complex pole. -/
theorem c6_witness :
    pairState.builtTF.Poles.getD (pairState.Poles_real.length + 2 * 0) 0 =
      pairState.Poles_cpx.getD 0 0 * (pairState.Freq_scale : ℂ) ∧
    pairState.builtTF.Poles.getD
        (pairState.Poles_real.length + 2 * 0 + 1) 0 =
      star (pairState.Poles_cpx.getD 0 0 * (pairState.Freq_scale : ℂ)) ∧
    pairState.builtTF.Residues.getD
        (pairState.Poles_real.length + 2 * 0) 0 =
      (pairState.Freq_scale : ℂ) • pairState.Residues_cpx.getD 0 0 ∧
    pairState.builtTF.Residues.getD
        (pairState.Poles_real.length + 2 * 0 + 1) 0 =
      ((pairState.Freq_scale : ℂ) • pairState.Residues_cpx.getD 0 0).map
        star :=
  (c6_conjugate_pairing pairState rfl rfl (by
    intro p hp
    simp only [pairState, emptyState, List.mem_singleton] at hp
    subst hp
    simp)).2.2.2.1 0 (by simp [pairState, emptyState])

/-! ### Scan lemmas for the order reducer -/

lemma findHit_some_spec {α : Type} (f : α → ℝ) (tol : ℝ) (l : List α)
    (i : ℕ) (x : α) (h : findHit f tol l = some (i, x)) :
    i < l.length ∧ l.getD i x = x ∧ f x < tol := by
  induction l generalizing i with
  | nil => simp [findHit] at h
  | cons y ys ih =>
    rw [findHit] at h
    split_ifs at h with hy
    · simp only [Option.some.injEq, Prod.mk.injEq] at h
      obtain ⟨h1, h2⟩ := h
      subst h1; subst h2
      exact ⟨by simp, rfl, hy⟩
    · cases hfy : findHit f tol ys with
      | none => rw [hfy] at h; simp at h
      | some p =>
        obtain ⟨pi, px⟩ := p
        rw [hfy] at h
        simp only [Option.map_some', Option.some.injEq, Prod.mk.injEq] at h
        obtain ⟨h1, h2⟩ := h
        subst h2
        obtain ⟨ih1, ih2, ih3⟩ := ih pi hfy
        subst h1
        refine ⟨by simp [List.length_cons]; omega, ?_, ih3⟩
        simpa [List.getD_cons_succ] using ih2

lemma findHit_none_spec {α : Type} (f : α → ℝ) (tol : ℝ) (l : List α)
    (h : findHit f tol l = none) : ∀ x ∈ l, ¬ f x < tol := by
  induction l with
  | nil => simp
  | cons y ys ih =>
    rw [findHit] at h
    split_ifs at h with hy
    intro x hx
    have hys : findHit f tol ys = none := by
      cases hfy : findHit f tol ys with
      | none => rfl
      | some p => rw [hfy] at h; simp at h
    rcases List.mem_cons.mp hx with rfl | hx2
    · exact hy
    · exact ih hys x hx2

lemma roRealHit_lt {m n : ℕ} (s : VFState m n) (tol : ℝ)
    (ix : ℕ × (ℂ × CMat m n)) (h : roRealHit s tol = some ix) :
    ix.1 < s.Poles_real.length := by
  have := (findHit_some_spec _ _ _ _ _
    (show findHit _ tol (s.Poles_real.zip s.Residues_real) =
      some (ix.1, ix.2) from h)).1
  rw [List.length_zip] at this
  omega

lemma roCpxHit_lt {m n : ℕ} (s : VFState m n) (tol : ℝ)
    (ix : ℕ × (ℂ × CMat m n)) (h : roCpxHit s tol = some ix) :
    ix.1 < s.Poles_cpx.length := by
  have := (findHit_some_spec _ _ _ _ _
    (show findHit _ tol (s.Poles_cpx.zip s.Residues_cpx) =
      some (ix.1, ix.2) from h)).1
  rw [List.length_zip] at this
  omega

lemma reduce_order_step_real {m n : ℕ} (s : VFState m n) (tol : ℝ)
    (ix : ℕ × (ℂ × CMat m n)) (h : roRealHit s.update_TF tol = some ix) :
    s.reduce_order tol = (s.update_TF.removeReal ix.1).reduce_order tol := by
  rw [VFState.reduce_order]
  split
  · rename_i ix2 hR
    rw [h] at hR
    rw [Option.some.inj hR]
  · rename_i hR
    rw [h] at hR
    exact absurd hR (by simp)

lemma reduce_order_step_cpx {m n : ℕ} (s : VFState m n) (tol : ℝ)
    (ix : ℕ × (ℂ × CMat m n)) (h1 : roRealHit s.update_TF tol = none)
    (h2 : roCpxHit s.update_TF tol = some ix) :
    s.reduce_order tol = (s.update_TF.removeCpx ix.1).reduce_order tol := by
  rw [VFState.reduce_order]
  split
  · rename_i ix2 hR
    rw [h1] at hR
    exact absurd hR (by simp)
  · split
    · rename_i ix2 hC
      rw [h2] at hC
      rw [Option.some.inj hC]
    · rename_i hC
      rw [h2] at hC
      exact absurd hC (by simp)

lemma reduce_order_base {m n : ℕ} (s : VFState m n) (tol : ℝ)
    (h1 : roRealHit s.update_TF tol = none)
    (h2 : roCpxHit s.update_TF tol = none) :
    s.reduce_order tol = s.update_TF := by
  rw [VFState.reduce_order]
  split
  · rename_i ix2 hR
    rw [h1] at hR
    exact absurd hR (by simp)
  · split
    · rename_i ix2 hC
      rw [h2] at hC
      exact absurd hC (by simp)
    · rfl

lemma reduce_order_fixpoint {m n : ℕ} (s : VFState m n) (tol : ℝ) :
    roRealHit (s.reduce_order tol) tol = none ∧
    roCpxHit (s.reduce_order tol) tol = none := by
  suffices H : ∀ (N : ℕ) (t : VFState m n),
      t.Poles_real.length + t.Poles_cpx.length ≤ N →
      roRealHit (t.reduce_order tol) tol = none ∧
      roCpxHit (t.reduce_order tol) tol = none from
    H _ s le_rfl
  intro N
  induction N with
  | zero =>
    intro t ht
    have hR : roRealHit t.update_TF tol = none := by
      cases h : roRealHit t.update_TF tol with
      | none => rfl
      | some ix =>
        have := roRealHit_lt _ _ _ h
        have h2 : t.update_TF.Poles_real.length = t.Poles_real.length := rfl
        omega
    have hC : roCpxHit t.update_TF tol = none := by
      cases h : roCpxHit t.update_TF tol with
      | none => rfl
      | some ix =>
        have := roCpxHit_lt _ _ _ h
        have h2 : t.update_TF.Poles_cpx.length = t.Poles_cpx.length := rfl
        omega
    rw [reduce_order_base _ _ hR hC]
    exact ⟨hR, hC⟩
  | succ N ihN =>
    intro t ht
    cases hR : roRealHit t.update_TF tol with
    | some ix =>
      rw [reduce_order_step_real _ _ _ hR]
      apply ihN
      have hlt := roRealHit_lt _ _ _ hR
      have h2 : t.update_TF.Poles_real.length = t.Poles_real.length := rfl
      have h3 : (t.update_TF.removeReal ix.1).Poles_real.length =
          t.Poles_real.length - 1 := by
        show (t.Poles_real.eraseIdx ix.1).length = _
        exact List.length_eraseIdx_of_lt (by omega)
      have h4 : (t.update_TF.removeReal ix.1).Poles_cpx.length =
          t.Poles_cpx.length := rfl
      omega
    | none =>
      cases hC : roCpxHit t.update_TF tol with
      | some ix =>
        rw [reduce_order_step_cpx _ _ _ hR hC]
        apply ihN
        have hlt := roCpxHit_lt _ _ _ hC
        have h2 : t.update_TF.Poles_cpx.length = t.Poles_cpx.length := rfl
        have h3 : (t.update_TF.removeCpx ix.1).Poles_cpx.length =
            t.Poles_cpx.length - 1 := by
          show (t.Poles_cpx.eraseIdx ix.1).length = _
          exact List.length_eraseIdx_of_lt (by omega)
        have h4 : (t.update_TF.removeCpx ix.1).Poles_real.length =
            t.Poles_real.length := rfl
        omega
      | none =>
        rw [reduce_order_base _ _ hR hC]
        exact ⟨hR, hC⟩

/-- C8 (status: confirmed).  The order reducer removes a real pole (or a
    complex-conjugate pair) exactly at a scan hit, and a hit means the
    mean relative error of the current fit minus the candidate's own
    contribution, measured against the data, is strictly below the
    tolerance; after each removal the procedure restarts from scratch on
    the updated pole set (the recursive call); the complex scan only runs
    when the real scan has no hit; and the final state admits no further
    removal: every remaining real pole and every remaining complex pair
    fails the removal criterion. -/
theorem c8_order_reducer {m n : ℕ} (s : VFState m n) (tol : ℝ) :
    (∀ ix, roRealHit s.update_TF tol = some ix →
      removalErr s.update_TF (roDfit s.update_TF)
          (poleContribReal s.update_TF.Freq_scale ix.2.1 ix.2.2) < tol ∧
      (s.update_TF.Poles_real.zip s.update_TF.Residues_real).getD ix.1 ix.2
        = ix.2 ∧
      s.reduce_order tol = (s.update_TF.removeReal ix.1).reduce_order tol ∧
      (s.update_TF.removeReal ix.1).Poles_real =
        s.Poles_real.eraseIdx ix.1) ∧
    (roRealHit s.update_TF tol = none →
      ∀ ix, roCpxHit s.update_TF tol = some ix →
      removalErr s.update_TF (roDfit s.update_TF)
          (poleContribCpx s.update_TF.Freq_scale ix.2.1 ix.2.2) < tol ∧
      (s.update_TF.Poles_cpx.zip s.update_TF.Residues_cpx).getD ix.1 ix.2
        = ix.2 ∧
      s.reduce_order tol = (s.update_TF.removeCpx ix.1).reduce_order tol ∧
      (s.update_TF.removeCpx ix.1).Poles_cpx =
        s.Poles_cpx.eraseIdx ix.1) ∧
    (roRealHit s.update_TF tol = none → roCpxHit s.update_TF tol = none →
      s.reduce_order tol = s.update_TF) ∧
    (∀ pr ∈ (s.reduce_order tol).Poles_real.zip
        (s.reduce_order tol).Residues_real,
      ¬ removalErr (s.reduce_order tol) (roDfit (s.reduce_order tol))
          (poleContribReal (s.reduce_order tol).Freq_scale pr.1 pr.2)
        < tol) ∧
    (∀ pr ∈ (s.reduce_order tol).Poles_cpx.zip
        (s.reduce_order tol).Residues_cpx,
      ¬ removalErr (s.reduce_order tol) (roDfit (s.reduce_order tol))
          (poleContribCpx (s.reduce_order tol).Freq_scale pr.1 pr.2)
        < tol) := by
  obtain ⟨hRfix, hCfix⟩ := reduce_order_fixpoint s tol
  refine ⟨?_, ?_, reduce_order_base s tol, ?_, ?_⟩
  · intro ix h
    obtain ⟨h1, h2, h3⟩ := findHit_some_spec _ tol _ ix.1 ix.2
      (show findHit _ tol
        (s.update_TF.Poles_real.zip s.update_TF.Residues_real) =
        some (ix.1, ix.2) from h)
    exact ⟨h3, h2, reduce_order_step_real s tol ix h, rfl⟩
  · intro hnone ix h
    obtain ⟨h1, h2, h3⟩ := findHit_some_spec _ tol _ ix.1 ix.2
      (show findHit _ tol
        (s.update_TF.Poles_cpx.zip s.update_TF.Residues_cpx) =
        some (ix.1, ix.2) from h)
    exact ⟨h3, h2, reduce_order_step_cpx s tol ix hnone h, rfl⟩
  · exact findHit_none_spec _ tol _ hRfix
  · exact findHit_none_spec _ tol _ hCfix

/-- Closed instance of the C8 theorem: on a state with no poles at all the
    reducer stops immediately and returns the rebuilt state. -/
theorem c8_witness :
    (emptyState 1 1).reduce_order 1 = (emptyState 1 1).update_TF :=
  (c8_order_reducer (emptyState 1 1) 1).2.2.1 rfl rfl

/-- C7 counterexample.  The model with the single real pole -1 and residue
    matrix [[i]] satisfies the claim's hypotheses (the pole array lists
    real poles first and every complex pole adjacent to its conjugate with
    conjugate residues — vacuously, as there is no complex pole), s = 0 is
    not a pole, yet the Gilbert realization drops the imaginary part of
    the residue (tools.py line 313 keeps only R.real for a non-pair pole),
    so C (sI - A)⁻¹ B + D + sE evaluates to 0 while the pole-residue model
    evaluates to i. -/
theorem c7_counterexample :
    ¬ (ofRealMat (gilC [(-1 : ℂ)] [Matrix.of fun _ _ => Complex.I]) *
        ((0 : ℂ) • (1 : Matrix (Fin 1 × Fin [(-1 : ℂ)].length) (Fin 1 × Fin [(-1 : ℂ)].length) ℂ) -
          ofRealMat (@gilKronA 1 [(-1 : ℂ)]))⁻¹ *
        ofRealMat (@gilBmat 1 [(-1 : ℂ)]) +
        (0 : CMat 1 1) + (0 : ℂ) • (0 : CMat 1 1) =
      pr_eval [(-1 : ℂ)] [Matrix.of fun _ _ => Complex.I] 0 0 0) := by
  intro h
  have hM : ((0 : ℂ) • (1 : Matrix (Fin 1 × Fin [(-1 : ℂ)].length) (Fin 1 × Fin [(-1 : ℂ)].length) ℂ) -
      ofRealMat (@gilKronA 1 [(-1 : ℂ)])) = 1 := by
    apply Matrix.ext
    intro q q'
    have hqq : q = q' := by
      obtain ⟨i, k⟩ := q
      obtain ⟨i2, k2⟩ := q'
      have e1 : i = i2 := Subsingleton.elim i i2
      have e2 : k = k2 := by
        apply Fin.ext
        have hk := k.isLt
        have hk2 := k2.isLt
        simp only [List.length_cons, List.length_nil] at hk hk2
        omega
      rw [e1, e2]
    subst hqq
    simp [gilKronA, gilA, ofRealMat, Matrix.one_apply, Matrix.smul_apply,
      Matrix.sub_apply, Matrix.map_apply, Matrix.kroneckerMap_apply, pnth]
  rw [hM, inv_one, Matrix.mul_one] at h
  have h00 := congrFun (congrFun h 0) 0
  simp [Matrix.mul_apply, Fintype.sum_prod_type, gilC, ofRealMat,
    Matrix.map_apply, Matrix.add_apply, Matrix.smul_apply, pr_eval,
    gilIsCC, pnth, gilPrev, rnth, Matrix.zero_apply] at h00
  exact Complex.I_ne_zero h00.symm

/-! ### Structure access lemmas for the realization proof -/

lemma structPoles_length {m n : ℕ} (realPR : List (ℝ × RMat m n))
    (pairs : List (ℂ × CMat m n)) :
    (structPoles realPR pairs).length = realPR.length + 2 * pairs.length := by
  have hf := flat2_length (fun q : ℂ × CMat m n => q.1)
    (fun q => star q.1) pairs
  rw [structPoles, List.length_append, List.length_map, hf]

lemma structResidues_length {m n : ℕ} (realPR : List (ℝ × RMat m n))
    (pairs : List (ℂ × CMat m n)) :
    (structResidues realPR pairs).length =
      realPR.length + 2 * pairs.length := by
  have hf := flat2_length (fun q : ℂ × CMat m n => q.2)
    (fun q => q.2.map star) pairs
  rw [structResidues, List.length_append, List.length_map, hf]

lemma pnth_struct_real {m n : ℕ} (realPR : List (ℝ × RMat m n))
    (pairs : List (ℂ × CMat m n)) (k : ℕ) (hk : k < realPR.length) :
    pnth (structPoles realPR pairs) k = ((rpOf realPR k : ℝ) : ℂ) := by
  have hk1 : k < (realPR.map fun x => ((x.1 : ℝ) : ℂ)).length := by
    simp [hk]
  rw [pnth, structPoles, List.getD_append _ _ _ _ hk1,
    List.getD_eq_getElem _ _ hk1, List.getElem_map, rpOf,
    List.getD_eq_getElem _ _ hk]

lemma pnth_struct_even {m n : ℕ} (realPR : List (ℝ × RMat m n))
    (pairs : List (ℂ × CMat m n)) (i : ℕ) (hi : i < pairs.length) :
    pnth (structPoles realPR pairs) (realPR.length + 2 * i) =
      ppOf pairs i := by
  have hf := flat2_length (fun q : ℂ × CMat m n => q.1)
    (fun q => star q.1) pairs
  have hb : realPR.length + 2 * i < (structPoles realPR pairs).length := by
    rw [structPoles_length]; omega
  rw [pnth, List.getD_eq_getElem _ _ hb]
  unfold structPoles at hb ⊢
  rw [List.getElem_append_right (by simp)]
  have hidx : realPR.length + 2 * i -
      (realPR.map fun x => ((x.1 : ℝ) : ℂ)).length = 2 * i := by
    simp
  simp only [hidx]
  rw [flat2_getElem_even (fun q : ℂ × CMat m n => q.1)
    (fun q => star q.1) pairs i hi (by rw [hf]; omega)]
  rw [ppOf, List.getD_eq_getElem _ _ hi]

lemma pnth_struct_odd {m n : ℕ} (realPR : List (ℝ × RMat m n))
    (pairs : List (ℂ × CMat m n)) (i : ℕ) (hi : i < pairs.length) :
    pnth (structPoles realPR pairs) (realPR.length + 2 * i + 1) =
      star (ppOf pairs i) := by
  have hf := flat2_length (fun q : ℂ × CMat m n => q.1)
    (fun q => star q.1) pairs
  have hb : realPR.length + 2 * i + 1 <
      (structPoles realPR pairs).length := by
    rw [structPoles_length]; omega
  rw [pnth, List.getD_eq_getElem _ _ hb]
  unfold structPoles at hb ⊢
  rw [List.getElem_append_right (by simp; omega)]
  have hidx : realPR.length + 2 * i + 1 -
      (realPR.map fun x => ((x.1 : ℝ) : ℂ)).length = 2 * i + 1 := by
    simp; omega
  simp only [hidx]
  rw [flat2_getElem_odd (fun q : ℂ × CMat m n => q.1)
    (fun q => star q.1) pairs i hi (by rw [hf]; omega)]
  rw [ppOf, List.getD_eq_getElem _ _ hi]

lemma pnth_struct_out {m n : ℕ} (realPR : List (ℝ × RMat m n))
    (pairs : List (ℂ × CMat m n)) (k : ℕ)
    (hk : (structPoles realPR pairs).length ≤ k) :
    pnth (structPoles realPR pairs) k = 0 := by
  rw [pnth, List.getD_eq_default _ _ hk]

lemma rnth_struct_real {m n : ℕ} (realPR : List (ℝ × RMat m n))
    (pairs : List (ℂ × CMat m n)) (k : ℕ) (hk : k < realPR.length) :
    rnth (structResidues realPR pairs) k = ofRealMat (rrOf realPR k) := by
  have hk1 : k < (realPR.map fun x => ofRealMat x.2).length := by
    simp [hk]
  rw [rnth, structResidues, List.getD_append _ _ _ _ hk1,
    List.getD_eq_getElem _ _ hk1, List.getElem_map, rrOf,
    List.getD_eq_getElem _ _ hk]

lemma rnth_struct_even {m n : ℕ} (realPR : List (ℝ × RMat m n))
    (pairs : List (ℂ × CMat m n)) (i : ℕ) (hi : i < pairs.length) :
    rnth (structResidues realPR pairs) (realPR.length + 2 * i) =
      prOf pairs i := by
  have hf := flat2_length (fun q : ℂ × CMat m n => q.2)
    (fun q => q.2.map star) pairs
  have hb : realPR.length + 2 * i < (structResidues realPR pairs).length := by
    rw [structResidues_length]; omega
  rw [rnth, List.getD_eq_getElem _ _ hb]
  unfold structResidues at hb ⊢
  rw [List.getElem_append_right (by simp)]
  have hidx : realPR.length + 2 * i -
      (realPR.map fun x : ℝ × RMat m n => ofRealMat x.2).length = 2 * i := by
    simp
  simp only [hidx]
  rw [flat2_getElem_even (fun q : ℂ × CMat m n => q.2)
    (fun q => q.2.map star) pairs i hi (by rw [hf]; omega)]
  rw [prOf, List.getD_eq_getElem _ _ hi]

lemma rnth_struct_odd {m n : ℕ} (realPR : List (ℝ × RMat m n))
    (pairs : List (ℂ × CMat m n)) (i : ℕ) (hi : i < pairs.length) :
    rnth (structResidues realPR pairs) (realPR.length + 2 * i + 1) =
      (prOf pairs i).map star := by
  have hf := flat2_length (fun q : ℂ × CMat m n => q.2)
    (fun q => q.2.map star) pairs
  have hb : realPR.length + 2 * i + 1 <
      (structResidues realPR pairs).length := by
    rw [structResidues_length]; omega
  rw [rnth, List.getD_eq_getElem _ _ hb]
  unfold structResidues at hb ⊢
  rw [List.getElem_append_right (by simp; omega)]
  have hidx : realPR.length + 2 * i + 1 -
      (realPR.map fun x : ℝ × RMat m n => ofRealMat x.2).length =
      2 * i + 1 := by
    simp; omega
  simp only [hidx]
  rw [flat2_getElem_odd (fun q : ℂ × CMat m n => q.2)
    (fun q => q.2.map star) pairs i hi (by rw [hf]; omega)]
  rw [prOf, List.getD_eq_getElem _ _ hi]

lemma ppOf_im_ne {m n : ℕ} (pairs : List (ℂ × CMat m n))
    (hpair : ∀ q ∈ pairs, q.1.im ≠ 0) (i : ℕ) (hi : i < pairs.length) :
    (ppOf pairs i).im ≠ 0 := by
  rw [ppOf, List.getD_eq_getElem _ _ hi]
  exact hpair _ (List.getElem_mem _)

lemma struct_index_cases (nr nc k : ℕ) (hk : k < nr + 2 * nc) :
    k < nr ∨ (∃ i, i < nc ∧ k = nr + 2 * i) ∨
      (∃ i, i < nc ∧ k = nr + 2 * i + 1) := by
  by_cases h : k < nr
  · exact Or.inl h
  · push_neg at h
    rcases Nat.even_or_odd (k - nr) with ⟨i, hi⟩ | ⟨i, hi⟩
    · exact Or.inr (Or.inl ⟨i, by omega, by omega⟩)
    · exact Or.inr (Or.inr ⟨i, by omega, by omega⟩)

lemma gilIsCC_struct {m n : ℕ} (realPR : List (ℝ × RMat m n))
    (pairs : List (ℂ × CMat m n))
    (hpair : ∀ q ∈ pairs, q.1.im ≠ 0)
    (hdist : ∀ i, i + 1 < pairs.length → ppOf pairs (i + 1) ≠ ppOf pairs i)
    (k : ℕ) :
    gilIsCC (structPoles realPR pairs) k ↔
      ∃ i, i < pairs.length ∧ k = realPR.length + 2 * i + 1 := by
  by_cases hk : k < (structPoles realPR pairs).length
  case neg =>
    push_neg at hk
    have hk2 := hk
    rw [structPoles_length] at hk2
    rw [gilIsCC, pnth_struct_out _ _ _ hk]
    constructor
    · rintro ⟨h1, _⟩
      simp at h1
    · rintro ⟨i, hi, hki⟩
      omega
  case pos =>
    have hk2 := hk
    rw [structPoles_length] at hk2
    rcases struct_index_cases realPR.length pairs.length k hk2 with
      hreal | ⟨i, hi, hke⟩ | ⟨i, hi, hko⟩
    · rw [gilIsCC, pnth_struct_real _ _ _ hreal]
      constructor
      · rintro ⟨h1, _⟩
        simp at h1
      · rintro ⟨i, hi, hki⟩
        omega
    · constructor
      · rintro ⟨h1, h2⟩
        exfalso
        rw [hke, pnth_struct_even _ _ _ hi] at h1 h2
        rcases Nat.eq_zero_or_pos i with rfl | hipos
        · rcases Nat.eq_zero_or_pos realPR.length with hnr0 | hnrpos
          · rw [gilPrev, if_pos (by omega)] at h2
            rw [star_zero] at h2
            rw [h2] at h1
            simp at h1
          · rw [gilPrev, if_neg (by omega)] at h2
            have hidx : realPR.length + 2 * 0 - 1 = realPR.length - 1 := by
              omega
            rw [hidx, pnth_struct_real _ _ _ (by omega)] at h2
            have him := congrArg Complex.im h2
            simp [Complex.star_def] at him
            exact h1 him
        · rw [gilPrev, if_neg (by omega)] at h2
          have hidx : realPR.length + 2 * i - 1 =
              realPR.length + 2 * (i - 1) + 1 := by omega
          rw [hidx, pnth_struct_odd _ _ _ (by omega), star_star] at h2
          exact hdist (i - 1) (by omega)
            (by rw [show i - 1 + 1 = i from by omega]; exact h2) 
      · rintro ⟨i2, hi2, hki2⟩
        omega
    · constructor
      · intro _
        exact ⟨i, hi, hko⟩
      · intro _
        refine ⟨?_, ?_⟩
        · rw [hko, pnth_struct_odd _ _ _ hi]
          simp only [Complex.star_def, Complex.conj_im, ne_eq, neg_eq_zero]
          exact ppOf_im_ne pairs hpair i hi
        · rw [hko, gilPrev, if_neg (by omega)]
          have hidx : realPR.length + 2 * i + 1 - 1 =
              realPR.length + 2 * i := by omega
          rw [hidx, pnth_struct_even _ _ _ hi, pnth_struct_odd _ _ _ hi]

lemma sum_delta_mul {N : ℕ} (k : Fin N) (x : ℂ) (w : Fin N → ℂ) :
    (∑ t : Fin N, (if t = k then x else 0) * w t) = x * w k := by
  rw [Finset.sum_eq_single k]
  · rw [if_pos rfl]
  · intro b _ hb
    rw [if_neg hb, zero_mul]
  · intro h
    exact absurd (Finset.mem_univ k) h

lemma sum_delta_val_mul {N : ℕ} (j : ℕ) (hj : j < N) (x : ℂ)
    (w : Fin N → ℂ) :
    (∑ t : Fin N, (if t.val = j then x else 0) * w t) = x * w ⟨j, hj⟩ := by
  rw [Finset.sum_eq_single (⟨j, hj⟩ : Fin N)]
  · rw [if_pos rfl]
  · intro b _ hb
    rw [if_neg, zero_mul]
    intro hc
    exact hb (Fin.ext hc)
  · intro h
    exact absurd (Finset.mem_univ _) h

lemma row_real {m n : ℕ} (realPR : List (ℝ × RMat m n))
    (pairs : List (ℂ × CMat m n))
    (hpair : ∀ q ∈ pairs, q.1.im ≠ 0)
    (hdist : ∀ i, i + 1 < pairs.length → ppOf pairs (i + 1) ≠ ppOf pairs i)
    (s : ℂ)
    (k t : Fin (structPoles realPR pairs).length)
    (hk : k.val < realPR.length) :
    (s • (1 : Matrix (Fin (structPoles realPR pairs).length)
        (Fin (structPoles realPR pairs).length) ℂ) -
      ofRealMat (gilA (structPoles realPR pairs))) k t =
    (if t = k then s - ((rpOf realPR k.val : ℝ) : ℂ) else 0) := by
  have hcc := gilIsCC_struct realPR pairs hpair hdist
  have hcck : ¬ gilIsCC (structPoles realPR pairs) k.val := by
    rw [hcc]
    rintro ⟨i, hi, hki⟩
    omega
  simp only [Matrix.sub_apply, Matrix.smul_apply, Matrix.one_apply,
    ofRealMat, Matrix.map_apply, gilA, Matrix.of_apply, smul_eq_mul]
  by_cases h1 : k = t
  · subst h1
    rw [if_pos rfl, if_pos rfl, if_pos rfl, pnth_struct_real _ _ _ hk]
    simp
  · have hcct : ¬(t.val = k.val + 1 ∧
        gilIsCC (structPoles realPR pairs) t.val) := by
      rintro ⟨he, hc⟩
      rw [hcc] at hc
      obtain ⟨i, hi, hti⟩ := hc
      omega
    rw [if_neg h1, if_neg h1,
      if_neg (show ¬(k.val = t.val + 1 ∧
        gilIsCC (structPoles realPR pairs) k.val) from fun h => hcck h.2),
      if_neg hcct, if_neg (show ¬t = k from fun h => h1 h.symm)]
    simp

lemma row_first {m n : ℕ} (realPR : List (ℝ × RMat m n))
    (pairs : List (ℂ × CMat m n))
    (hpair : ∀ q ∈ pairs, q.1.im ≠ 0)
    (hdist : ∀ i, i + 1 < pairs.length → ppOf pairs (i + 1) ≠ ppOf pairs i)
    (s : ℂ)
    (k t : Fin (structPoles realPR pairs).length)
    (i : ℕ) (hi : i < pairs.length)
    (hk : k.val = realPR.length + 2 * i) :
    (s • (1 : Matrix (Fin (structPoles realPR pairs).length)
        (Fin (structPoles realPR pairs).length) ℂ) -
      ofRealMat (gilA (structPoles realPR pairs))) k t =
    (if t = k then s - ((ppOf pairs i).re : ℂ) else 0) +
    (if t.val = k.val + 1 then (((ppOf pairs i).im : ℝ) : ℂ) else 0) := by
  have hcc := gilIsCC_struct realPR pairs hpair hdist
  have hcck : ¬ gilIsCC (structPoles realPR pairs) k.val := by
    rw [hcc]
    rintro ⟨i2, hi2, hki2⟩
    omega
  have hpk : pnth (structPoles realPR pairs) k.val = ppOf pairs i := by
    rw [hk]
    exact pnth_struct_even _ _ _ hi
  simp only [Matrix.sub_apply, Matrix.smul_apply, Matrix.one_apply,
    ofRealMat, Matrix.map_apply, gilA, Matrix.of_apply, smul_eq_mul]
  by_cases h1 : k = t
  · subst h1
    rw [if_pos rfl, if_pos rfl, if_pos rfl, if_neg (by omega), hpk]
    simp
  · rw [if_neg h1, if_neg h1,
      if_neg (show ¬(k.val = t.val + 1 ∧
        gilIsCC (structPoles realPR pairs) k.val) from fun h => hcck h.2),
      if_neg (show ¬t = k from fun h => h1 h.symm)]
    by_cases ht : t.val = k.val + 1
    · have hcct : gilIsCC (structPoles realPR pairs) t.val := by
        rw [hcc]
        exact ⟨i, hi, by omega⟩
      rw [if_pos ⟨ht, hcct⟩, if_pos ht]
      have hpt : pnth (structPoles realPR pairs) t.val =
          star (ppOf pairs i) := by
        rw [show t.val = realPR.length + 2 * i + 1 from by omega]
        exact pnth_struct_odd _ _ _ hi
      rw [hpt]
      simp [Complex.star_def]
    · have hcct : ¬(t.val = k.val + 1 ∧
          gilIsCC (structPoles realPR pairs) t.val) := by
        rintro ⟨he, _⟩
        exact ht he
      rw [if_neg hcct, if_neg ht]
      simp

lemma row_second {m n : ℕ} (realPR : List (ℝ × RMat m n))
    (pairs : List (ℂ × CMat m n))
    (hpair : ∀ q ∈ pairs, q.1.im ≠ 0)
    (hdist : ∀ i, i + 1 < pairs.length → ppOf pairs (i + 1) ≠ ppOf pairs i)
    (s : ℂ)
    (k t : Fin (structPoles realPR pairs).length)
    (i : ℕ) (hi : i < pairs.length)
    (hk : k.val = realPR.length + 2 * i + 1) :
    (s • (1 : Matrix (Fin (structPoles realPR pairs).length)
        (Fin (structPoles realPR pairs).length) ℂ) -
      ofRealMat (gilA (structPoles realPR pairs))) k t =
    (if t = k then s - ((ppOf pairs i).re : ℂ) else 0) +
    (if t.val + 1 = k.val then (-(((ppOf pairs i).im : ℝ) : ℂ)) else 0) := by
  have hcc := gilIsCC_struct realPR pairs hpair hdist
  have hcck : gilIsCC (structPoles realPR pairs) k.val := by
    rw [hcc]
    exact ⟨i, hi, hk⟩
  have hpk : pnth (structPoles realPR pairs) k.val = star (ppOf pairs i) := by
    rw [hk]
    exact pnth_struct_odd _ _ _ hi
  have hcct3 : ∀ t2 : Fin (structPoles realPR pairs).length,
      t2.val = k.val + 1 → ¬ gilIsCC (structPoles realPR pairs) t2.val := by
    intro t2 ht2 hc
    rw [hcc] at hc
    obtain ⟨i2, hi2, hti2⟩ := hc
    omega
  simp only [Matrix.sub_apply, Matrix.smul_apply, Matrix.one_apply,
    ofRealMat, Matrix.map_apply, gilA, Matrix.of_apply, smul_eq_mul]
  by_cases h1 : k = t
  · subst h1
    rw [if_pos rfl, if_pos rfl, if_pos rfl, if_neg (by omega), hpk]
    simp [Complex.star_def]
  · rw [if_neg h1, if_neg h1,
      if_neg (show ¬t = k from fun h => h1 h.symm)]
    by_cases ht : k.val = t.val + 1
    · rw [if_pos ⟨ht, hcck⟩,
        if_pos (show t.val + 1 = k.val from by omega), hpk]
      simp [Complex.star_def]
    · rw [if_neg (show ¬(k.val = t.val + 1 ∧
          gilIsCC (structPoles realPR pairs) k.val) from fun h => ht h.1)]
      have hcct : ¬(t.val = k.val + 1 ∧
          gilIsCC (structPoles realPR pairs) t.val) := by
        rintro ⟨he, hc⟩
        exact hcct3 t he hc
      rw [if_neg hcct,
        if_neg (show ¬t.val + 1 = k.val from fun h => ht h.symm)]
      simp

lemma sq_add_sq_factor (p s : ℂ) :
    (s - ((p.re : ℝ) : ℂ)) ^ 2 + (((p.im : ℝ) : ℂ)) ^ 2 =
      (s - p) * (s - star p) := by
  have h1 : p + star p = 2 * ((p.re : ℝ) : ℂ) := by
    rw [Complex.star_def, Complex.add_conj]
    push_cast
    ring
  have h2 : p * star p = ((p.re : ℝ) : ℂ) ^ 2 + ((p.im : ℝ) : ℂ) ^ 2 := by
    rw [Complex.star_def, Complex.mul_conj, Complex.normSq_apply]
    push_cast
    ring
  linear_combination s * h1 - h2

lemma pairDen_eq (pp : ℕ → ℂ) (s : ℂ) (i : ℕ) :
    pairDen pp s i = (s - pp i) * (s - star (pp i)) := by
  rw [pairDen]
  exact sq_add_sq_factor (pp i) s

lemma pnth_mem (P : List ℂ) (k : ℕ) (hk : k < P.length) : pnth P k ∈ P := by
  rw [pnth, List.getD_eq_getElem _ _ hk]
  exact List.getElem_mem _

lemma realPole_ne {m n : ℕ} (realPR : List (ℝ × RMat m n))
    (pairs : List (ℂ × CMat m n)) (s : ℂ)
    (hs : ∀ p ∈ structPoles realPR pairs, s ≠ p)
    (k : ℕ) (hk : k < realPR.length) :
    s - ((rpOf realPR k : ℝ) : ℂ) ≠ 0 := by
  have hb : k < (structPoles realPR pairs).length := by
    rw [structPoles_length]
    omega
  have h := hs _ (pnth_mem _ _ hb)
  rw [pnth_struct_real _ _ _ hk] at h
  exact sub_ne_zero_of_ne h

lemma s_ne_pair {m n : ℕ} (realPR : List (ℝ × RMat m n))
    (pairs : List (ℂ × CMat m n)) (s : ℂ)
    (hs : ∀ p ∈ structPoles realPR pairs, s ≠ p)
    (i : ℕ) (hi : i < pairs.length) :
    s ≠ ppOf pairs i := by
  have hb : realPR.length + 2 * i < (structPoles realPR pairs).length := by
    rw [structPoles_length]
    omega
  have h := hs _ (pnth_mem _ _ hb)
  rwa [pnth_struct_even _ _ _ hi] at h

lemma s_ne_pair_star {m n : ℕ} (realPR : List (ℝ × RMat m n))
    (pairs : List (ℂ × CMat m n)) (s : ℂ)
    (hs : ∀ p ∈ structPoles realPR pairs, s ≠ p)
    (i : ℕ) (hi : i < pairs.length) :
    s ≠ star (ppOf pairs i) := by
  have hb : realPR.length + 2 * i + 1 <
      (structPoles realPR pairs).length := by
    rw [structPoles_length]
    omega
  have h := hs _ (pnth_mem _ _ hb)
  rwa [pnth_struct_odd _ _ _ hi] at h

lemma pairDen_ne {m n : ℕ} (realPR : List (ℝ × RMat m n))
    (pairs : List (ℂ × CMat m n)) (s : ℂ)
    (hs : ∀ p ∈ structPoles realPR pairs, s ≠ p)
    (i : ℕ) (hi : i < pairs.length) :
    pairDen (ppOf pairs) s i ≠ 0 := by
  rw [pairDen_eq]
  exact mul_ne_zero
    (sub_ne_zero_of_ne (s_ne_pair realPR pairs s hs i hi))
    (sub_ne_zero_of_ne (s_ne_pair_star realPR pairs s hs i hi))

lemma wEntryN_real (nr : ℕ) (rp : ℕ → ℝ) (pp : ℕ → ℂ) (s : ℂ)
    (k l : ℕ) (hk : k < nr) :
    wEntryN nr rp pp s k l =
      (if l = k then (s - ((rp k : ℝ) : ℂ))⁻¹ else 0) := by
  unfold wEntryN
  rw [if_pos hk]

lemma wEntryN_even (nr : ℕ) (rp : ℕ → ℝ) (pp : ℕ → ℂ) (s : ℂ)
    (i l : ℕ) :
    wEntryN nr rp pp s (nr + 2 * i) l =
      (if l = nr + 2 * i then
        (s - (((pp i).re : ℝ) : ℂ)) / pairDen pp s i
       else if l = nr + 2 * i + 1 then
        -((((pp i).im : ℝ) : ℂ)) / pairDen pp s i
       else 0) := by
  unfold wEntryN
  rw [if_neg (by omega), if_pos (show (nr + 2 * i - nr) % 2 = 0 by omega)]
  have h1 : (nr + 2 * i - nr) / 2 = i := by omega
  rw [h1]

lemma wEntryN_odd (nr : ℕ) (rp : ℕ → ℝ) (pp : ℕ → ℂ) (s : ℂ)
    (i l : ℕ) :
    wEntryN nr rp pp s (nr + 2 * i + 1) l =
      (if l = nr + 2 * i + 1 then
        (s - (((pp i).re : ℝ) : ℂ)) / pairDen pp s i
       else if l = nr + 2 * i then
        ((((pp i).im : ℝ) : ℂ)) / pairDen pp s i
       else 0) := by
  unfold wEntryN
  rw [if_neg (by omega),
    if_neg (show ¬(nr + 2 * i + 1 - nr) % 2 = 0 by omega)]
  have h1 : (nr + 2 * i + 1 - nr) / 2 = i := by omega
  have h2 : nr + 2 * i + 1 - 1 = nr + 2 * i := by omega
  rw [h1, h2]

lemma sMinusA_mul_w {m n : ℕ} (realPR : List (ℝ × RMat m n))
    (pairs : List (ℂ × CMat m n))
    (hpair : ∀ q ∈ pairs, q.1.im ≠ 0)
    (hdist : ∀ i, i + 1 < pairs.length → ppOf pairs (i + 1) ≠ ppOf pairs i)
    (s : ℂ) (hs : ∀ p ∈ structPoles realPR pairs, s ≠ p) :
    (s • (1 : Matrix (Fin (structPoles realPR pairs).length)
        (Fin (structPoles realPR pairs).length) ℂ) -
      ofRealMat (gilA (structPoles realPR pairs))) *
      wMat realPR.length (rpOf realPR) (ppOf pairs) s
        (structPoles realPR pairs).length = 1 := by
  have hN := structPoles_length realPR pairs
  apply Matrix.ext
  intro k l
  rw [Matrix.mul_apply]
  have hkb : k.val < realPR.length + 2 * pairs.length := by
    have hkl := k.isLt
    omega
  rcases struct_index_cases realPR.length pairs.length k.val hkb with
    hreal | ⟨i, hi, hke⟩ | ⟨i, hi, hko⟩
  · have e1 : (∑ t, (s • (1 : Matrix (Fin (structPoles realPR pairs).length)
          (Fin (structPoles realPR pairs).length) ℂ) -
          ofRealMat (gilA (structPoles realPR pairs))) k t *
          wMat realPR.length (rpOf realPR) (ppOf pairs) s
            (structPoles realPR pairs).length t l) =
        ∑ t, (if t = k then s - ((rpOf realPR k.val : ℝ) : ℂ) else 0) *
          wMat realPR.length (rpOf realPR) (ppOf pairs) s
            (structPoles realPR pairs).length t l :=
      Finset.sum_congr rfl fun t _ => by
        rw [row_real realPR pairs hpair hdist s k t hreal]
    rw [e1, sum_delta_mul]
    have e2 : wMat realPR.length (rpOf realPR) (ppOf pairs) s
        (structPoles realPR pairs).length k l =
        (if l.val = k.val then (s - ((rpOf realPR k.val : ℝ) : ℂ))⁻¹
         else 0) := by
      show wEntryN realPR.length (rpOf realPR) (ppOf pairs) s k.val l.val = _
      rw [wEntryN_real _ _ _ _ _ _ hreal]
    rw [e2]
    by_cases hlk : l = k
    · rw [hlk, if_pos rfl, Matrix.one_apply_eq,
        mul_inv_cancel₀ (realPole_ne realPR pairs s hs k.val hreal)]
    · rw [if_neg (fun hc => hlk (Fin.ext hc)), mul_zero,
        Matrix.one_apply_ne' hlk]
  · have hk1 : k.val + 1 < (structPoles realPR pairs).length := by omega
    have e1 : (∑ t, (s • (1 : Matrix (Fin (structPoles realPR pairs).length)
          (Fin (structPoles realPR pairs).length) ℂ) -
          ofRealMat (gilA (structPoles realPR pairs))) k t *
          wMat realPR.length (rpOf realPR) (ppOf pairs) s
            (structPoles realPR pairs).length t l) =
        ∑ t, ((if t = k then s - ((ppOf pairs i).re : ℂ) else 0) *
          wMat realPR.length (rpOf realPR) (ppOf pairs) s
            (structPoles realPR pairs).length t l +
          (if t.val = k.val + 1 then (((ppOf pairs i).im : ℝ) : ℂ) else 0) *
          wMat realPR.length (rpOf realPR) (ppOf pairs) s
            (structPoles realPR pairs).length t l) :=
      Finset.sum_congr rfl fun t _ => by
        rw [row_first realPR pairs hpair hdist s k t i hi hke, add_mul]
    rw [e1, Finset.sum_add_distrib, sum_delta_mul,
      sum_delta_val_mul (k.val + 1) hk1]
    have e2 : wMat realPR.length (rpOf realPR) (ppOf pairs) s
        (structPoles realPR pairs).length k l =
        (if l.val = realPR.length + 2 * i then
          (s - ((ppOf pairs i).re : ℂ)) / pairDen (ppOf pairs) s i
         else if l.val = realPR.length + 2 * i + 1 then
          -(((ppOf pairs i).im : ℂ)) / pairDen (ppOf pairs) s i
         else 0) := by
      show wEntryN realPR.length (rpOf realPR) (ppOf pairs) s k.val l.val = _
      rw [hke, wEntryN_even]
    have e3 : wMat realPR.length (rpOf realPR) (ppOf pairs) s
        (structPoles realPR pairs).length ⟨k.val + 1, hk1⟩ l =
        (if l.val = realPR.length + 2 * i + 1 then
          (s - ((ppOf pairs i).re : ℂ)) / pairDen (ppOf pairs) s i
         else if l.val = realPR.length + 2 * i then
          (((ppOf pairs i).im : ℂ)) / pairDen (ppOf pairs) s i
         else 0) := by
      show wEntryN realPR.length (rpOf realPR) (ppOf pairs) s
        (k.val + 1) l.val = _
      rw [hke, wEntryN_odd]
    rw [e2, e3]
    have hD : pairDen (ppOf pairs) s i ≠ 0 := pairDen_ne realPR pairs s hs i hi
    by_cases hl1 : l.val = realPR.length + 2 * i
    · rw [if_pos hl1,
        if_neg (show ¬l.val = realPR.length + 2 * i + 1 by omega),
        if_pos hl1]
      have hlk : l = k := Fin.ext (by omega)
      rw [hlk, Matrix.one_apply_eq]
      have e4 : (s - ((ppOf pairs i).re : ℂ)) *
          ((s - ((ppOf pairs i).re : ℂ)) / pairDen (ppOf pairs) s i) +
          (((ppOf pairs i).im : ℂ)) *
          ((((ppOf pairs i).im : ℂ)) / pairDen (ppOf pairs) s i) =
          ((s - ((ppOf pairs i).re : ℂ)) ^ 2 +
            (((ppOf pairs i).im : ℂ)) ^ 2) / pairDen (ppOf pairs) s i := by
        ring
      rw [e4, show (s - ((ppOf pairs i).re : ℂ)) ^ 2 +
          (((ppOf pairs i).im : ℂ)) ^ 2 = pairDen (ppOf pairs) s i from rfl,
        div_self hD]
    · by_cases hl2 : l.val = realPR.length + 2 * i + 1
      · rw [if_neg hl1, if_pos hl2, if_pos hl2]
        have hlk : ¬l = k := fun h => by
          have hv := congrArg Fin.val h
          simp only [] at hv
          omega
        rw [Matrix.one_apply_ne' hlk]
        ring
      · have hlk : ¬l = k := fun h => by
          have hv := congrArg Fin.val h
          simp only [] at hv
          omega
        rw [if_neg hl1, if_neg hl2, if_neg hl2, if_neg hl1, mul_zero,
          mul_zero, add_zero, Matrix.one_apply_ne' hlk]
  · have hjlt : realPR.length + 2 * i <
        (structPoles realPR pairs).length := by omega
    have e1 : (∑ t, (s • (1 : Matrix (Fin (structPoles realPR pairs).length)
          (Fin (structPoles realPR pairs).length) ℂ) -
          ofRealMat (gilA (structPoles realPR pairs))) k t *
          wMat realPR.length (rpOf realPR) (ppOf pairs) s
            (structPoles realPR pairs).length t l) =
        ∑ t, ((if t = k then s - ((ppOf pairs i).re : ℂ) else 0) *
          wMat realPR.length (rpOf realPR) (ppOf pairs) s
            (structPoles realPR pairs).length t l +
          (if t.val = realPR.length + 2 * i then
            (-(((ppOf pairs i).im : ℝ) : ℂ)) else 0) *
          wMat realPR.length (rpOf realPR) (ppOf pairs) s
            (structPoles realPR pairs).length t l) :=
      Finset.sum_congr rfl fun t _ => by
        rw [row_second realPR pairs hpair hdist s k t i hi hko, add_mul,
          if_congr (show (t.val + 1 = k.val) ↔
            (t.val = realPR.length + 2 * i) from by omega) rfl rfl]
    rw [e1, Finset.sum_add_distrib, sum_delta_mul,
      sum_delta_val_mul (realPR.length + 2 * i) hjlt]
    have e2 : wMat realPR.length (rpOf realPR) (ppOf pairs) s
        (structPoles realPR pairs).length k l =
        (if l.val = realPR.length + 2 * i + 1 then
          (s - ((ppOf pairs i).re : ℂ)) / pairDen (ppOf pairs) s i
         else if l.val = realPR.length + 2 * i then
          (((ppOf pairs i).im : ℂ)) / pairDen (ppOf pairs) s i
         else 0) := by
      show wEntryN realPR.length (rpOf realPR) (ppOf pairs) s k.val l.val = _
      rw [hko, wEntryN_odd]
    have e3 : wMat realPR.length (rpOf realPR) (ppOf pairs) s
        (structPoles realPR pairs).length ⟨realPR.length + 2 * i, hjlt⟩ l =
        (if l.val = realPR.length + 2 * i then
          (s - ((ppOf pairs i).re : ℂ)) / pairDen (ppOf pairs) s i
         else if l.val = realPR.length + 2 * i + 1 then
          -(((ppOf pairs i).im : ℂ)) / pairDen (ppOf pairs) s i
         else 0) := by
      show wEntryN realPR.length (rpOf realPR) (ppOf pairs) s
        (realPR.length + 2 * i) l.val = _
      rw [wEntryN_even]
    rw [e2, e3]
    have hD : pairDen (ppOf pairs) s i ≠ 0 := pairDen_ne realPR pairs s hs i hi
    by_cases hl2 : l.val = realPR.length + 2 * i + 1
    · rw [if_pos hl2,
        if_neg (show ¬l.val = realPR.length + 2 * i by omega),
        if_pos hl2]
      have hlk : l = k := Fin.ext (by omega)
      rw [hlk, Matrix.one_apply_eq]
      have e4 : (s - ((ppOf pairs i).re : ℂ)) *
          ((s - ((ppOf pairs i).re : ℂ)) / pairDen (ppOf pairs) s i) +
          (-(((ppOf pairs i).im : ℝ) : ℂ)) *
          (-(((ppOf pairs i).im : ℂ)) / pairDen (ppOf pairs) s i) =
          ((s - ((ppOf pairs i).re : ℂ)) ^ 2 +
            (((ppOf pairs i).im : ℂ)) ^ 2) / pairDen (ppOf pairs) s i := by
        ring
      rw [e4, show (s - ((ppOf pairs i).re : ℂ)) ^ 2 +
          (((ppOf pairs i).im : ℂ)) ^ 2 = pairDen (ppOf pairs) s i from rfl,
        div_self hD]
    · by_cases hl1 : l.val = realPR.length + 2 * i
      · rw [if_neg hl2, if_pos hl1, if_pos hl1]
        have hlk : ¬l = k := fun h => by
          have hv := congrArg Fin.val h
          simp only [] at hv
          omega
        rw [Matrix.one_apply_ne' hlk]
        ring
      · have hlk : ¬l = k := fun h => by
          have hv := congrArg Fin.val h
          simp only [] at hv
          omega
        rw [if_neg hl2, if_neg hl1, if_neg hl1, if_neg hl2, mul_zero,
          mul_zero, add_zero, Matrix.one_apply_ne' hlk]

lemma kron_shift {n N : ℕ} (aR : Matrix (Fin N) (Fin N) ℝ) (s : ℂ) :
    s • (1 : Matrix (Fin n × Fin N) (Fin n × Fin N) ℂ) -
      ofRealMat ((1 : Matrix (Fin n) (Fin n) ℝ) ⊗ₖ aR) =
    (1 : Matrix (Fin n) (Fin n) ℂ) ⊗ₖ
      (s • (1 : Matrix (Fin N) (Fin N) ℂ) - ofRealMat aR) := by
  apply Matrix.ext
  rintro ⟨i, k⟩ ⟨j, l⟩
  simp only [Matrix.sub_apply, Matrix.smul_apply, Matrix.one_apply,
    ofRealMat, Matrix.map_apply, Matrix.kroneckerMap_apply, smul_eq_mul,
    Prod.mk.injEq]
  by_cases hij : i = j
  · subst hij
    by_cases hkl : k = l
    · subst hkl
      simp
    · rw [if_neg (fun hc => hkl hc.2), if_neg hkl, if_pos rfl]
      simp [hkl]
  · rw [if_neg (fun hc => hij hc.1), if_neg hij]
    simp [hij]

lemma pair_scalar (a b c d : ℝ) (s : ℂ)
    (h1 : s - ((c : ℂ) + (d : ℂ) * Complex.I) ≠ 0)
    (h2 : s - ((c : ℂ) - (d : ℂ) * Complex.I) ≠ 0) :
    ((a : ℂ) + (b : ℂ) * Complex.I) /
        (s - ((c : ℂ) + (d : ℂ) * Complex.I)) +
      ((a : ℂ) - (b : ℂ) * Complex.I) /
        (s - ((c : ℂ) - (d : ℂ) * Complex.I)) =
    (2 * (a : ℂ) * (s - (c : ℂ)) - 2 * (b : ℂ) * (d : ℂ)) /
      ((s - (c : ℂ)) ^ 2 + ((d : ℂ)) ^ 2) := by
  have hD : ((s - (c : ℂ)) ^ 2 + ((d : ℂ)) ^ 2) =
      (s - ((c : ℂ) + (d : ℂ) * Complex.I)) *
        (s - ((c : ℂ) - (d : ℂ) * Complex.I)) := by
    linear_combination ((d : ℂ)) ^ 2 * Complex.I_sq
  rw [div_add_div _ _ h1 h2, hD]
  congr 1
  linear_combination (2 * (b : ℂ) * (d : ℂ)) * Complex.I_sq

lemma mul_one_kron {M N n : ℕ} (C : Matrix (Fin M) (Fin n × Fin N) ℂ)
    (W : Matrix (Fin N) (Fin N) ℂ) (r : Fin M) (q : Fin n × Fin N) :
    (C * ((1 : Matrix (Fin n) (Fin n) ℂ) ⊗ₖ W)) r q =
      ∑ k, C r (q.1, k) * W k q.2 := by
  rw [Matrix.mul_apply, Fintype.sum_prod_type]
  rw [Finset.sum_eq_single q.1]
  · refine Finset.sum_congr rfl fun k _ => ?_
    simp [Matrix.kroneckerMap_apply, Matrix.one_apply]
  · intro i _ hi
    refine Finset.sum_eq_zero fun k _ => ?_
    simp [Matrix.kroneckerMap_apply, Matrix.one_apply, hi]
  · intro h
    exact absurd (Finset.mem_univ _) h

lemma mul_bmat {M n : ℕ} (Poles : List ℂ)
    (P : Matrix (Fin M) (Fin n × Fin Poles.length) ℂ)
    (r : Fin M) (j : Fin n) :
    (P * ofRealMat (@gilBmat n Poles)) r j =
      ∑ l, P r (j, l) * ((gilB Poles l : ℝ) : ℂ) := by
  rw [Matrix.mul_apply, Fintype.sum_prod_type]
  rw [Finset.sum_eq_single j]
  · refine Finset.sum_congr rfl fun l _ => ?_
    simp [ofRealMat, gilBmat]
  · intro i _ hi
    refine Finset.sum_eq_zero fun l _ => ?_
    simp [ofRealMat, gilBmat, hi]
  · intro h
    exact absurd (Finset.mem_univ _) h

lemma sum_exchange {N : ℕ} (a : Fin N → ℂ) (W : Matrix (Fin N) (Fin N) ℂ)
    (b : Fin N → ℂ) :
    (∑ l, (∑ k, a k * W k l) * b l) = ∑ k, a k * (∑ l, W k l * b l) := by
  have h1 : ∀ l, (∑ k, a k * W k l) * b l = ∑ k, a k * (W k l * b l) := by
    intro l
    rw [Finset.sum_mul]
    exact Finset.sum_congr rfl fun k _ => by ring
  rw [Finset.sum_congr rfl fun l _ => h1 l, Finset.sum_comm]
  refine Finset.sum_congr rfl fun k _ => ?_
  rw [Finset.mul_sum]

lemma vEntryN_real (nr : ℕ) (rp : ℕ → ℝ) (pp : ℕ → ℂ) (s : ℂ)
    (k : ℕ) (hk : k < nr) :
    vEntryN nr rp pp s k = (s - ((rp k : ℝ) : ℂ))⁻¹ := by
  unfold vEntryN
  rw [if_pos hk]

lemma vEntryN_even (nr : ℕ) (rp : ℕ → ℝ) (pp : ℕ → ℂ) (s : ℂ) (i : ℕ) :
    vEntryN nr rp pp s (nr + 2 * i) =
      2 * (s - (((pp i).re : ℝ) : ℂ)) / pairDen pp s i := by
  unfold vEntryN
  rw [if_neg (by omega), if_pos (show (nr + 2 * i - nr) % 2 = 0 by omega)]
  have h1 : (nr + 2 * i - nr) / 2 = i := by omega
  rw [h1]

lemma vEntryN_odd (nr : ℕ) (rp : ℕ → ℝ) (pp : ℕ → ℂ) (s : ℂ) (i : ℕ) :
    vEntryN nr rp pp s (nr + 2 * i + 1) =
      2 * ((((pp i).im : ℝ) : ℂ)) / pairDen pp s i := by
  unfold vEntryN
  rw [if_neg (by omega),
    if_neg (show ¬(nr + 2 * i + 1 - nr) % 2 = 0 by omega)]
  have h1 : (nr + 2 * i + 1 - nr) / 2 = i := by omega
  rw [h1]

lemma gilB_struct_real {m n : ℕ} (realPR : List (ℝ × RMat m n))
    (pairs : List (ℂ × CMat m n))
    (hpair : ∀ q ∈ pairs, q.1.im ≠ 0)
    (hdist : ∀ i, i + 1 < pairs.length → ppOf pairs (i + 1) ≠ ppOf pairs i)
    (l : Fin (structPoles realPR pairs).length)
    (hl : l.val < realPR.length) :
    gilB (structPoles realPR pairs) l = 1 := by
  have hcc := gilIsCC_struct realPR pairs hpair hdist
  simp only [gilB]
  rw [if_neg, if_neg]
  · rw [hcc]
    rintro ⟨i, hi, he⟩
    omega
  · rw [hcc]
    rintro ⟨i, hi, he⟩
    omega

lemma gilB_struct_even {m n : ℕ} (realPR : List (ℝ × RMat m n))
    (pairs : List (ℂ × CMat m n))
    (hpair : ∀ q ∈ pairs, q.1.im ≠ 0)
    (hdist : ∀ i, i + 1 < pairs.length → ppOf pairs (i + 1) ≠ ppOf pairs i)
    (l : Fin (structPoles realPR pairs).length)
    (i : ℕ) (hi : i < pairs.length)
    (hl : l.val = realPR.length + 2 * i) :
    gilB (structPoles realPR pairs) l = 2 := by
  have hcc := gilIsCC_struct realPR pairs hpair hdist
  simp only [gilB]
  rw [if_pos]
  rw [hcc]
  exact ⟨i, hi, by omega⟩

lemma gilB_struct_odd {m n : ℕ} (realPR : List (ℝ × RMat m n))
    (pairs : List (ℂ × CMat m n))
    (hpair : ∀ q ∈ pairs, q.1.im ≠ 0)
    (hdist : ∀ i, i + 1 < pairs.length → ppOf pairs (i + 1) ≠ ppOf pairs i)
    (l : Fin (structPoles realPR pairs).length)
    (i : ℕ) (hi : i < pairs.length)
    (hl : l.val = realPR.length + 2 * i + 1) :
    gilB (structPoles realPR pairs) l = 0 := by
  have hcc := gilIsCC_struct realPR pairs hpair hdist
  simp only [gilB]
  rw [if_neg, if_pos]
  · rw [hcc]
    exact ⟨i, hi, hl⟩
  · rw [hcc]
    rintro ⟨i2, hi2, he⟩
    omega

lemma ite2_split (j1 j2 lv : ℕ) (hne : j1 ≠ j2) (x y c : ℂ) :
    (if lv = j1 then x else if lv = j2 then y else 0) * c =
    (if lv = j1 then x else 0) * c + (if lv = j2 then y else 0) * c := by
  by_cases h1 : lv = j1
  · rw [if_pos h1, if_pos h1, if_neg (by omega), zero_mul, add_zero]
  · rw [if_neg h1, if_neg h1, zero_mul, zero_add]

lemma w_mulvec_b {m n : ℕ} (realPR : List (ℝ × RMat m n))
    (pairs : List (ℂ × CMat m n))
    (hpair : ∀ q ∈ pairs, q.1.im ≠ 0)
    (hdist : ∀ i, i + 1 < pairs.length → ppOf pairs (i + 1) ≠ ppOf pairs i)
    (s : ℂ) (k : Fin (structPoles realPR pairs).length) :
    (∑ l, wMat realPR.length (rpOf realPR) (ppOf pairs) s
        (structPoles realPR pairs).length k l *
      ((gilB (structPoles realPR pairs) l : ℝ) : ℂ)) =
    vEntryN realPR.length (rpOf realPR) (ppOf pairs) s k.val := by
  have hN := structPoles_length realPR pairs
  have hkb : k.val < realPR.length + 2 * pairs.length := by
    have hkl := k.isLt
    omega
  rcases struct_index_cases realPR.length pairs.length k.val hkb with
    hreal | ⟨i, hi, hke⟩ | ⟨i, hi, hko⟩
  · have e1 : ∀ l : Fin (structPoles realPR pairs).length,
        wMat realPR.length (rpOf realPR) (ppOf pairs) s
          (structPoles realPR pairs).length k l *
          ((gilB (structPoles realPR pairs) l : ℝ) : ℂ) =
        (if l.val = k.val then (s - ((rpOf realPR k.val : ℝ) : ℂ))⁻¹
          else 0) * ((gilB (structPoles realPR pairs) l : ℝ) : ℂ) := by
      intro l
      rw [show wMat realPR.length (rpOf realPR) (ppOf pairs) s
          (structPoles realPR pairs).length k l =
          wEntryN realPR.length (rpOf realPR) (ppOf pairs) s k.val l.val
          from rfl, wEntryN_real _ _ _ _ _ _ hreal]
    rw [Finset.sum_congr rfl fun l _ => e1 l,
      sum_delta_val_mul k.val k.isLt,
      gilB_struct_real realPR pairs hpair hdist ⟨k.val, k.isLt⟩ hreal,
      vEntryN_real _ _ _ _ _ hreal]
    norm_num
  · have hb1 : realPR.length + 2 * i <
        (structPoles realPR pairs).length := by omega
    have hb2 : realPR.length + 2 * i + 1 <
        (structPoles realPR pairs).length := by omega
    have e1 : ∀ l : Fin (structPoles realPR pairs).length,
        wMat realPR.length (rpOf realPR) (ppOf pairs) s
          (structPoles realPR pairs).length k l *
          ((gilB (structPoles realPR pairs) l : ℝ) : ℂ) =
        (if l.val = realPR.length + 2 * i then
            (s - ((ppOf pairs i).re : ℂ)) / pairDen (ppOf pairs) s i
          else 0) * ((gilB (structPoles realPR pairs) l : ℝ) : ℂ) +
        (if l.val = realPR.length + 2 * i + 1 then
            -(((ppOf pairs i).im : ℂ)) / pairDen (ppOf pairs) s i
          else 0) * ((gilB (structPoles realPR pairs) l : ℝ) : ℂ) := by
      intro l
      rw [show wMat realPR.length (rpOf realPR) (ppOf pairs) s
          (structPoles realPR pairs).length k l =
          wEntryN realPR.length (rpOf realPR) (ppOf pairs) s k.val l.val
          from rfl, hke, wEntryN_even,
        ite2_split (realPR.length + 2 * i) (realPR.length + 2 * i + 1)
          l.val (by omega)]
    rw [Finset.sum_congr rfl fun l _ => e1 l, Finset.sum_add_distrib,
      sum_delta_val_mul _ hb1, sum_delta_val_mul _ hb2,
      gilB_struct_even realPR pairs hpair hdist ⟨_, hb1⟩ i hi rfl,
      gilB_struct_odd realPR pairs hpair hdist ⟨_, hb2⟩ i hi rfl,
      hke, vEntryN_even]
    push_cast
    ring
  · have hb1 : realPR.length + 2 * i <
        (structPoles realPR pairs).length := by omega
    have hb2 : realPR.length + 2 * i + 1 <
        (structPoles realPR pairs).length := by omega
    have e1 : ∀ l : Fin (structPoles realPR pairs).length,
        wMat realPR.length (rpOf realPR) (ppOf pairs) s
          (structPoles realPR pairs).length k l *
          ((gilB (structPoles realPR pairs) l : ℝ) : ℂ) =
        (if l.val = realPR.length + 2 * i + 1 then
            (s - ((ppOf pairs i).re : ℂ)) / pairDen (ppOf pairs) s i
          else 0) * ((gilB (structPoles realPR pairs) l : ℝ) : ℂ) +
        (if l.val = realPR.length + 2 * i then
            (((ppOf pairs i).im : ℂ)) / pairDen (ppOf pairs) s i
          else 0) * ((gilB (structPoles realPR pairs) l : ℝ) : ℂ) := by
      intro l
      rw [show wMat realPR.length (rpOf realPR) (ppOf pairs) s
          (structPoles realPR pairs).length k l =
          wEntryN realPR.length (rpOf realPR) (ppOf pairs) s k.val l.val
          from rfl, hko, wEntryN_odd,
        ite2_split (realPR.length + 2 * i + 1) (realPR.length + 2 * i)
          l.val (by omega)]
    rw [Finset.sum_congr rfl fun l _ => e1 l, Finset.sum_add_distrib,
      sum_delta_val_mul _ hb2, sum_delta_val_mul _ hb1,
      gilB_struct_odd realPR pairs hpair hdist ⟨_, hb2⟩ i hi rfl,
      gilB_struct_even realPR pairs hpair hdist ⟨_, hb1⟩ i hi rfl,
      hko, vEntryN_odd]
    push_cast
    ring

lemma sum_range_add_split (f : ℕ → ℂ) (a b : ℕ) :
    (∑ t ∈ Finset.range (a + b), f t) =
    (∑ t ∈ Finset.range a, f t) + ∑ t ∈ Finset.range b, f (a + t) := by
  induction b with
  | zero => simp
  | succ b ih =>
    rw [Nat.add_succ, Finset.sum_range_succ, ih, Finset.sum_range_succ,
      add_assoc]

lemma sum_range_two_mul (h : ℕ → ℂ) (c : ℕ) :
    (∑ t ∈ Finset.range (2 * c), h t) =
    ∑ t ∈ Finset.range c, (h (2 * t) + h (2 * t + 1)) := by
  induction c with
  | zero => simp
  | succ c ih =>
    rw [show 2 * (c + 1) = 2 * c + 1 + 1 by ring, Finset.sum_range_succ,
      Finset.sum_range_succ, ih, Finset.sum_range_succ, add_assoc]

lemma map_sum_apply_range {α : Type} {m n : ℕ} (L : List α)
    (f : α → CMat m n) (d : α) (r : Fin m) (j : Fin n) :
    (L.map f).sum r j = ∑ t ∈ Finset.range L.length, f (L.getD t d) r j := by
  induction L with
  | nil => simp [Matrix.zero_apply]
  | cons x xs ih =>
    rw [List.map_cons, List.sum_cons, Matrix.add_apply, List.length_cons,
      Finset.sum_range_succ']
    simp only [List.getD_cons_succ, List.getD_cons_zero]
    rw [ih, add_comm]

lemma zip_struct_real {m n : ℕ} (realPR : List (ℝ × RMat m n)) (s : ℂ) :
    List.zipWith (fun R p => (s - p)⁻¹ • R)
        (realPR.map fun x => ofRealMat x.2)
        (realPR.map fun x => ((x.1 : ℝ) : ℂ)) =
      realPR.map fun x => (s - ((x.1 : ℝ) : ℂ))⁻¹ • ofRealMat x.2 := by
  induction realPR with
  | nil => rfl
  | cons x xs ih => simp only [List.map_cons, List.zipWith_cons_cons, ih]

lemma zip_struct_pairs {m n : ℕ} (pairs : List (ℂ × CMat m n)) (s : ℂ) :
    List.zipWith (fun R p => (s - p)⁻¹ • R)
        (pairs.flatMap fun q => [q.2, q.2.map star])
        (pairs.flatMap fun q => [q.1, star q.1]) =
      pairs.flatMap fun q =>
        [(s - q.1)⁻¹ • q.2, (s - star q.1)⁻¹ • q.2.map star] := by
  induction pairs with
  | nil => rfl
  | cons q qs ih =>
    simp only [List.flatMap_cons, List.cons_append, List.nil_append,
      List.zipWith_cons_cons, ih]

lemma flatMap_pair_sum {m n : ℕ} (pairs : List (ℂ × CMat m n)) (s : ℂ) :
    (pairs.flatMap fun q =>
      [(s - q.1)⁻¹ • q.2, (s - star q.1)⁻¹ • q.2.map star]).sum =
    (pairs.map fun q =>
      (s - q.1)⁻¹ • q.2 + (s - star q.1)⁻¹ • q.2.map star).sum := by
  induction pairs with
  | nil => rfl
  | cons q qs ih =>
    simp only [List.flatMap_cons, List.map_cons, List.cons_append,
      List.nil_append, List.sum_cons, ih]
    rw [← add_assoc]

lemma zip_sum_struct {m n : ℕ} (realPR : List (ℝ × RMat m n))
    (pairs : List (ℂ × CMat m n)) (s : ℂ) :
    (List.zipWith (fun R p => (s - p)⁻¹ • R) (structResidues realPR pairs)
      (structPoles realPR pairs)).sum =
    (realPR.map fun x => (s - ((x.1 : ℝ) : ℂ))⁻¹ • ofRealMat x.2).sum +
    (pairs.map fun q =>
      (s - q.1)⁻¹ • q.2 + (s - star q.1)⁻¹ • q.2.map star).sum := by
  rw [structResidues, structPoles,
    List.zipWith_append _ _ _ _ _ (by simp), List.sum_append,
    zip_struct_real, zip_struct_pairs, flatMap_pair_sum]

lemma struct_sum_core {m n : ℕ} (realPR : List (ℝ × RMat m n))
    (pairs : List (ℂ × CMat m n))
    (hpair : ∀ q ∈ pairs, q.1.im ≠ 0)
    (hdist : ∀ i, i + 1 < pairs.length → ppOf pairs (i + 1) ≠ ppOf pairs i)
    (s : ℂ) (hs : ∀ p ∈ structPoles realPR pairs, s ≠ p)
    (r : Fin m) (j : Fin n) :
    (∑ k : Fin (structPoles realPR pairs).length,
      ofRealMat (gilC (structPoles realPR pairs)
        (structResidues realPR pairs)) r (j, k) *
        vEntryN realPR.length (rpOf realPR) (ppOf pairs) s k.val) =
    (List.zipWith (fun R p => (s - p)⁻¹ • R) (structResidues realPR pairs)
      (structPoles realPR pairs)).sum r j := by
  have hN := structPoles_length realPR pairs
  have hcc := gilIsCC_struct realPR pairs hpair hdist
  have e0 : ∀ k : Fin (structPoles realPR pairs).length,
      ofRealMat (gilC (structPoles realPR pairs)
        (structResidues realPR pairs)) r (j, k) *
        vEntryN realPR.length (rpOf realPR) (ppOf pairs) s k.val =
      (fun kv => (((if gilIsCC (structPoles realPR pairs) kv then
          (rnth (structResidues realPR pairs) kv r j).im
        else (rnth (structResidues realPR pairs) kv r j).re) : ℝ) : ℂ) *
        vEntryN realPR.length (rpOf realPR) (ppOf pairs) s kv) k.val :=
    fun k => rfl
  rw [Finset.sum_congr rfl fun k _ => e0 k,
    Fin.sum_univ_eq_sum_range (fun kv =>
      (((if gilIsCC (structPoles realPR pairs) kv then
          (rnth (structResidues realPR pairs) kv r j).im
        else (rnth (structResidues realPR pairs) kv r j).re) : ℝ) : ℂ) *
        vEntryN realPR.length (rpOf realPR) (ppOf pairs) s kv)
      ((structPoles realPR pairs).length),
    hN, sum_range_add_split, sum_range_two_mul,
    zip_sum_struct, Matrix.add_apply,
    map_sum_apply_range realPR _ (0, 0) r j,
    map_sum_apply_range pairs _ (0, 0) r j]
  congr 1
  · refine Finset.sum_congr rfl fun t ht => ?_
    have htr := Finset.mem_range.mp ht
    have hccR : ¬ gilIsCC (structPoles realPR pairs) t := by
      rw [hcc]
      rintro ⟨i2, hi2, he⟩
      omega
    simp only [if_neg hccR, rnth_struct_real realPR pairs t htr,
      vEntryN_real realPR.length (rpOf realPR) (ppOf pairs) s t htr,
      ofRealMat, Matrix.map_apply, Complex.ofReal_re, Matrix.smul_apply,
      smul_eq_mul, rpOf, rrOf]
    ring
  · refine Finset.sum_congr rfl fun t ht => ?_
    have htp := Finset.mem_range.mp ht
    have hccE : ¬ gilIsCC (structPoles realPR pairs)
        (realPR.length + 2 * t) := by
      rw [hcc]
      rintro ⟨i2, hi2, he⟩
      omega
    have hccO : gilIsCC (structPoles realPR pairs)
        (realPR.length + 2 * t + 1) := by
      rw [hcc]
      exact ⟨t, htp, rfl⟩
    have hidx : realPR.length + (2 * t + 1) = realPR.length + 2 * t + 1 := by
      ring
    rw [hidx]
    simp only [if_neg hccE, if_pos hccO,
      rnth_struct_even realPR pairs t htp,
      rnth_struct_odd realPR pairs t htp,
      vEntryN_even, vEntryN_odd, Matrix.add_apply, Matrix.smul_apply,
      smul_eq_mul, Matrix.map_apply, ppOf, prOf]
    have hpn : s ≠ ppOf pairs t := s_ne_pair realPR pairs s hs t htp
    have hpsn : s ≠ star (ppOf pairs t) :=
      s_ne_pair_star realPR pairs s hs t htp
    have hz := Complex.re_add_im ((pairs.getD t (0, 0)).2 r j)
    have hp := Complex.re_add_im ((pairs.getD t (0, 0)).1)
    have hzs : star ((pairs.getD t (0, 0)).2 r j) =
        ((((pairs.getD t (0, 0)).2 r j).re : ℂ) -
          (((pairs.getD t (0, 0)).2 r j).im : ℂ) * Complex.I) := by
      apply Complex.ext <;> simp [Complex.star_def]
    have hps : star ((pairs.getD t (0, 0)).1) =
        ((((pairs.getD t (0, 0)).1).re : ℂ) -
          (((pairs.getD t (0, 0)).1).im : ℂ) * Complex.I) := by
      apply Complex.ext <;> simp [Complex.star_def]
    have h1 : s - ((((pairs.getD t (0, 0)).1).re : ℂ) +
        (((pairs.getD t (0, 0)).1).im : ℂ) * Complex.I) ≠ 0 := by
      rw [hp]
      exact sub_ne_zero_of_ne hpn
    have h2 : s - ((((pairs.getD t (0, 0)).1).re : ℂ) -
        (((pairs.getD t (0, 0)).1).im : ℂ) * Complex.I) ≠ 0 := by
      rw [← hps]
      exact sub_ne_zero_of_ne hpsn
    have psc := pair_scalar ((pairs.getD t (0, 0)).2 r j).re
      ((pairs.getD t (0, 0)).2 r j).im ((pairs.getD t (0, 0)).1).re
      ((pairs.getD t (0, 0)).1).im s h1 h2
    rw [hz, hp, ← hzs, ← hps] at psc
    rw [show (s - ((((pairs.getD t (0, 0)).1).re : ℝ) : ℂ)) ^ 2 +
        (((((pairs.getD t (0, 0)).1).im : ℝ) : ℂ)) ^ 2 =
        pairDen (ppOf pairs) s t from rfl] at psc
    rw [show (star ((pairs.getD t (0, 0)).2 r j)).im =
        -((pairs.getD t (0, 0)).2 r j).im from by simp [Complex.star_def]]
    push_cast
    linear_combination psc.symm

/-- C7: for every model without a pole-at-origin term whose pole array
    lists the real poles first (with real-valued residue matrices) and
    then each complex pole immediately followed by its conjugate with
    conjugate residues, where consecutive conjugate pairs carry distinct
    representative poles, the Gilbert realization (A, B, C, D, E)
    returned by gilbert_realization satisfies
    C (sI - A)⁻¹ B + D + s E = Const + s Diff + Σ R_k / (s - p_k)
    for every s that is not a pole, with A, B, C real-valued.  This is
    the amended form of the claim: without the requirement that real
    poles carry real residues the identity fails (c7_counterexample),
    since the realization keeps only the real part of a real pole's
    residue. -/
theorem c7_realization_identity {m n : ℕ} (realPR : List (ℝ × RMat m n))
    (pairs : List (ℂ × CMat m n)) (Const Diff : CMat m n)
    (hpair : ∀ q ∈ pairs, q.1.im ≠ 0)
    (hdist : ∀ i, i + 1 < pairs.length → ppOf pairs (i + 1) ≠ ppOf pairs i)
    (s : ℂ) (hs : ∀ p ∈ structPoles realPR pairs, s ≠ p) :
    ofRealMat (gilbert_realization (structPoles realPR pairs)
        (structResidues realPR pairs) Const Diff).2.2.1 *
      (s • (1 : Matrix (Fin n × Fin (structPoles realPR pairs).length)
          (Fin n × Fin (structPoles realPR pairs).length) ℂ) -
        ofRealMat (gilbert_realization (structPoles realPR pairs)
          (structResidues realPR pairs) Const Diff).1)⁻¹ *
      ofRealMat (gilbert_realization (structPoles realPR pairs)
        (structResidues realPR pairs) Const Diff).2.1 +
      (gilbert_realization (structPoles realPR pairs)
        (structResidues realPR pairs) Const Diff).2.2.2.1 +
      s • (gilbert_realization (structPoles realPR pairs)
        (structResidues realPR pairs) Const Diff).2.2.2.2 =
    pr_eval (structPoles realPR pairs) (structResidues realPR pairs)
      Const Diff s := by
  show ofRealMat (gilC (structPoles realPR pairs)
      (structResidues realPR pairs)) *
      (s • (1 : Matrix (Fin n × Fin (structPoles realPR pairs).length)
          (Fin n × Fin (structPoles realPR pairs).length) ℂ) -
        ofRealMat (gilKronA (structPoles realPR pairs)))⁻¹ *
      ofRealMat (@gilBmat n (structPoles realPR pairs)) +
      Const + s • Diff = _
  have hw := sMinusA_mul_w realPR pairs hpair hdist s hs
  have hshift : s • (1 : Matrix
        (Fin n × Fin (structPoles realPR pairs).length)
        (Fin n × Fin (structPoles realPR pairs).length) ℂ) -
      ofRealMat (@gilKronA n (structPoles realPR pairs)) =
      (1 : Matrix (Fin n) (Fin n) ℂ) ⊗ₖ
        (s • (1 : Matrix (Fin (structPoles realPR pairs).length)
          (Fin (structPoles realPR pairs).length) ℂ) -
          ofRealMat (gilA (structPoles realPR pairs))) :=
    kron_shift (gilA (structPoles realPR pairs)) s
  have hinv : (s • (1 : Matrix
        (Fin n × Fin (structPoles realPR pairs).length)
        (Fin n × Fin (structPoles realPR pairs).length) ℂ) -
      ofRealMat (@gilKronA n (structPoles realPR pairs)))⁻¹ =
      (1 : Matrix (Fin n) (Fin n) ℂ) ⊗ₖ
        wMat realPR.length (rpOf realPR) (ppOf pairs) s
          (structPoles realPR pairs).length := by
    rw [hshift]
    apply Matrix.inv_eq_right_inv
    rw [← Matrix.mul_kronecker_mul, Matrix.one_mul, hw,
      Matrix.one_kronecker_one]
  rw [hinv]
  apply Matrix.ext
  intro r j
  rw [Matrix.add_apply, Matrix.add_apply, Matrix.smul_apply, smul_eq_mul,
    mul_bmat (structPoles realPR pairs) _ r j]
  have e1 : ∀ l : Fin (structPoles realPR pairs).length,
      (ofRealMat (gilC (structPoles realPR pairs)
          (structResidues realPR pairs)) *
        ((1 : Matrix (Fin n) (Fin n) ℂ) ⊗ₖ
          wMat realPR.length (rpOf realPR) (ppOf pairs) s
            (structPoles realPR pairs).length)) r (j, l) *
        ((gilB (structPoles realPR pairs) l : ℝ) : ℂ) =
      (∑ k2, ofRealMat (gilC (structPoles realPR pairs)
          (structResidues realPR pairs)) r (j, k2) *
        wMat realPR.length (rpOf realPR) (ppOf pairs) s
          (structPoles realPR pairs).length k2 l) *
        ((gilB (structPoles realPR pairs) l : ℝ) : ℂ) :=
    fun l => by rw [mul_one_kron _ _ r (j, l)]
  rw [Finset.sum_congr rfl fun l _ => e1 l, sum_exchange]
  have e2 : ∀ k2 : Fin (structPoles realPR pairs).length,
      ofRealMat (gilC (structPoles realPR pairs)
          (structResidues realPR pairs)) r (j, k2) *
        (∑ l, wMat realPR.length (rpOf realPR) (ppOf pairs) s
          (structPoles realPR pairs).length k2 l *
          ((gilB (structPoles realPR pairs) l : ℝ) : ℂ)) =
      ofRealMat (gilC (structPoles realPR pairs)
          (structResidues realPR pairs)) r (j, k2) *
        vEntryN realPR.length (rpOf realPR) (ppOf pairs) s k2.val :=
    fun k2 => by rw [w_mulvec_b realPR pairs hpair hdist s k2]
  rw [Finset.sum_congr rfl fun k2 _ => e2 k2,
    struct_sum_core realPR pairs hpair hdist s hs r j]
  simp only [pr_eval, Matrix.add_apply, Matrix.smul_apply, smul_eq_mul]
  ring

/-- Concrete instance of the realization identity: one real pole -2 and
    one conjugate pair -1 ± i, all residues zero, evaluated at s = 0. -/
theorem c7_realization_identity_witness :
    ofRealMat (gilbert_realization
        (structPoles [((-2 : ℝ), (0 : RMat 1 1))]
          [((⟨-1, 1⟩ : ℂ), (0 : CMat 1 1))])
        (structResidues [((-2 : ℝ), (0 : RMat 1 1))]
          [((⟨-1, 1⟩ : ℂ), (0 : CMat 1 1))]) 0 0).2.2.1 *
      ((0 : ℂ) • (1 : Matrix
          (Fin 1 × Fin (structPoles [((-2 : ℝ), (0 : RMat 1 1))]
            [((⟨-1, 1⟩ : ℂ), (0 : CMat 1 1))]).length)
          (Fin 1 × Fin (structPoles [((-2 : ℝ), (0 : RMat 1 1))]
            [((⟨-1, 1⟩ : ℂ), (0 : CMat 1 1))]).length) ℂ) -
        ofRealMat (gilbert_realization
          (structPoles [((-2 : ℝ), (0 : RMat 1 1))]
            [((⟨-1, 1⟩ : ℂ), (0 : CMat 1 1))])
          (structResidues [((-2 : ℝ), (0 : RMat 1 1))]
            [((⟨-1, 1⟩ : ℂ), (0 : CMat 1 1))]) 0 0).1)⁻¹ *
      ofRealMat (gilbert_realization
        (structPoles [((-2 : ℝ), (0 : RMat 1 1))]
          [((⟨-1, 1⟩ : ℂ), (0 : CMat 1 1))])
        (structResidues [((-2 : ℝ), (0 : RMat 1 1))]
          [((⟨-1, 1⟩ : ℂ), (0 : CMat 1 1))]) 0 0).2.1 +
      (gilbert_realization
        (structPoles [((-2 : ℝ), (0 : RMat 1 1))]
          [((⟨-1, 1⟩ : ℂ), (0 : CMat 1 1))])
        (structResidues [((-2 : ℝ), (0 : RMat 1 1))]
          [((⟨-1, 1⟩ : ℂ), (0 : CMat 1 1))]) 0 0).2.2.2.1 +
      (0 : ℂ) • (gilbert_realization
        (structPoles [((-2 : ℝ), (0 : RMat 1 1))]
          [((⟨-1, 1⟩ : ℂ), (0 : CMat 1 1))])
        (structResidues [((-2 : ℝ), (0 : RMat 1 1))]
          [((⟨-1, 1⟩ : ℂ), (0 : CMat 1 1))]) 0 0).2.2.2.2 =
    pr_eval (structPoles [((-2 : ℝ), (0 : RMat 1 1))]
        [((⟨-1, 1⟩ : ℂ), (0 : CMat 1 1))])
      (structResidues [((-2 : ℝ), (0 : RMat 1 1))]
        [((⟨-1, 1⟩ : ℂ), (0 : CMat 1 1))]) 0 0 0 :=
  c7_realization_identity [((-2 : ℝ), (0 : RMat 1 1))]
    [((⟨-1, 1⟩ : ℂ), (0 : CMat 1 1))] 0 0
    (fun q hq => by
      rw [List.mem_singleton] at hq
      subst hq
      norm_num)
    (fun i hi => absurd hi (by simp))
    0
    (fun p hp h => by
      subst h
      norm_num [structPoles, Complex.ext_iff, Complex.star_def] at hp)
